import Mathlib

/-!
Shallow embedding of the dependency-graph engine of `sane.py` (version 7.0),
the Makefile-like task runner.  The embedding follows `_Sane.update_graph`,
`_Sane.get_toposort`, `_Sane.run_tree`, `_Sane.resolve_depends`,
`_Sane.resolve_str_task`, `_Sane.resolve_str_cmd`,
`_Sane.is_signature_compatible`, `_Sane.get_trace`, the duplicate-name check
of `_Sane.cmd_decorator`, and the wrapper closures returned by
`_Sane.cmd_decorator` / `_Sane.task_decorator`.

Conventions of the embedding:
* a Python function object registered with sane is identified by a `Func`
  (a natural number); argument tuples are opaque value lists (`Args`);
* the scheduling unit is a `Node`, a `(func, args)` pair, exactly as the
  items handled by `update_graph`;
* Python `dict`s keyed by hashable values become association lists
  (`alookup`); only lookups and per-key updates are performed on them in the
  source, so list order is irrelevant to behaviour;
* fallible steps return `Except`/`Option`; unbounded `while` loops take a
  fuel parameter (`none` = out of fuel; every theorem below either supplies
  provably sufficient fuel or is stated about a concrete run).
-/

namespace Sane

/-- Identity of a Python function object registered with sane. -/
abbrev Func := Nat

/-- A concrete positional-argument tuple (values are opaque). -/
abbrev Args := List Nat

/-- The unit of scheduling: a `(func, args)` pair, as traversed by
`_Sane.update_graph` and executed by `_Sane.run_tree`. -/
abbrev Node := Func × Args

/-- How an argument vector reaches an operation when it is invoked.
`plain a` models the call `func(*a)` — the serial path of `run_tree` and the
final root call.  `single a` models `func(a)`: the whole tuple passed as one
positional argument, which is what `thread_exe.submit(self.catch_thread_exception(func), args)`
does on the concurrent path of `run_tree` (the source does not unpack `args`
there). -/
inductive PassedArgs
  | plain (a : Args)
  | single (a : Args)
deriving DecidableEq, Repr

/-- Fatal resolution errors raised by `_Sane.resolve_depends` via
`resolve_str_task` / `resolve_str_cmd` (each prints a message and exits). -/
inductive ResErr
  | unknownTask
  | ambiguousTask
  | unknownCmd
  | arityMismatch
deriving DecidableEq, Repr

/-- A dependency target, as stored in `props['depends']`: either an already
concrete function object or a by-name (string) reference resolved lazily. -/
inductive Ref
  | direct (f : Func)
  | byName (s : String)
deriving DecidableEq, Repr

/-- The sane-relevant metadata attached to a function (the `__sane__`
dictionary built by `_Sane.get_props`): its declared `@depends` edges.
`cmdDeps` are `@depends(on_cmd=..., args=...)` entries, `taskDeps` are
`@depends(on_task=...)` entries, `tagDeps` are `@depends(on_tag=...)`
entries. -/
structure Props where
  cmdDeps : List (Ref × Args) := []
  taskDeps : List Ref := []
  tagDeps : List String := []
deriving DecidableEq, Repr

/-- Association-list lookup, modelling Python `dict` indexing / `in` tests. -/
def alookup {α β : Type} [DecidableEq α] : List (α × β) → α → Option β
  | [], _ => none
  | (k, v) :: rest, a => if a = k then some v else alookup rest a

/-- The registries held by the `_Sane` singleton: `__sane__` metadata per
function, `self.cmds`, `self.tasks`, `self.tags`, and the positional
signature of each function (count of mandatory parameters, count of
parameters carrying a default) as read off by `inspect.signature`. -/
structure Env where
  registry : List (Func × Props)
  cmds : List (String × Func)
  tasks : List (String × List Func)
  tags : List (String × List Func)
  sig : Func → Nat × Nat

/-- The `__sane__` metadata of a function; a function that was never
decorated gets the default empty metadata (`_Sane.get_props`). -/
def getProps (env : Env) (f : Func) : Props :=
  (alookup env.registry f).getD {}

/-- Embedding of `_Sane.is_signature_compatible`: the argument count must
lie in `[mandatory, mandatory + optional]`. -/
def isSignatureCompatible (env : Env) (f : Func) (a : Args) : Bool :=
  let m := (env.sig f).1
  let o := (env.sig f).2
  !(decide (a.length < m) || decide (m + o < a.length))

/-- Embedding of `_Sane.resolve_str_task` (plus the surrounding type test of
`resolve_depends`): a concrete function passes through; a by-name reference
fails on a missing name, is ambiguous when several tasks share the name, and
otherwise resolves to the single task of that name.  (An empty bucket in
`self.tasks` never occurs, since buckets are created on task declaration.) -/
def resolveTask (env : Env) : Ref → Except ResErr Func
  | .direct f => .ok f
  | .byName s =>
    match alookup env.tasks s with
    | none => .error .unknownTask
    | some [] => .error .unknownTask
    | some [f] => .ok f
    | some (_ :: _ :: _) => .error .ambiguousTask

/-- Embedding of `_Sane.resolve_str_cmd` plus the arity validation performed
by `resolve_depends`.  Note that the source validates the accompanying
argument tuple only in the string-reference branch (`if type(cmd_depends) is str`);
a direct function reference is accepted without any arity check. -/
def resolveCmd (env : Env) (r : Ref) (a : Args) : Except ResErr Func :=
  match r with
  | .direct f => .ok f
  | .byName s =>
    match alookup env.cmds s with
    | none => .error .unknownCmd
    | some f => if isSignatureCompatible env f a then .ok f else .error .arityMismatch

/-- Effectful map over a list, stopping at the first resolution error (the
order in which `resolve_depends` reports errors). -/
def mapE {α β : Type} (g : α → Except ResErr β) : List α → Except ResErr (List β)
  | [] => .ok []
  | a :: as =>
    match g a with
    | .error e => .error e
    | .ok b =>
      match mapE g as with
      | .error e => .error e
      | .ok bs => .ok (b :: bs)

/-- Resolution and enumeration of the dependency edges of a function, in the
order `update_graph` and `get_toposort` walk them: first the resolved
`on_cmd` edges (each a `(func, args)` node), then the `on_task` edges (with
the empty argument tuple), then the expansion of every `on_tag` edge into
one node per currently tagged task (`self.tags.get(tag, [])`).
`resolve_depends` walks the task list before the cmd list, so a bad task
reference is reported before a bad cmd reference.  The source memoizes
resolution with a `resolved` flag and rewrites the edge in place; since the
registries are immutable by then, re-resolution is deterministic and
observationally identical, so the embedding simply re-resolves. -/
def childrenE (env : Env) (f : Func) : Except ResErr (List Node) :=
  let p := getProps env f
  match mapE (resolveTask env) p.taskDeps with
  | .error e => .error e
  | .ok ts =>
    match mapE (fun ra => (resolveCmd env ra.1 ra.2).map fun g => ((g, ra.2) : Node))
        p.cmdDeps with
    | .error e => .error e
    | .ok cs =>
      .ok (cs ++ ts.map (fun t => ((t, []) : Node)) ++
        p.tagDeps.flatMap fun tg => ((alookup env.tags tg).getD []).map fun t => ((t, []) : Node))

/-- The dependency edges of a node, as a pure function (children of a node
depend only on its function; the argument tuple plays no role in edge
enumeration).  Used for the specification-side statements; it agrees with
`childrenE` whenever resolution succeeds. -/
def funcChildren (env : Env) (f : Func) : List Node :=
  (childrenE env f).toOption.getD []

/-- Stack operations of the iterative traversal of `_Sane.update_graph`
(the `('visit', item)` / `('seal', item)` pairs). -/
inductive Op
  | visit (n : Node)
  | seal (n : Node)
deriving DecidableEq, Repr

def Op.sealNode : Op → Option Node
  | .seal n => some n
  | _ => none

def Op.visitNode : Op → Option Node
  | .visit n => some n
  | _ => none

/-- The nodes awaiting a `seal` in a stack (top of stack first). -/
def seals (l : List Op) : List Node := l.filterMap Op.sealNode

/-- The nodes awaiting a `visit` in a stack (top of stack first). -/
def visits (l : List Op) : List Node := l.filterMap Op.visitNode

/-- Embedding of `_Sane.get_trace`: pop the remaining stack, keeping the
`seal` items (these are exactly the nodes of the current traversal path,
deepest first). -/
def getTrace (l : List Op) : List Node := seals l

/-- Lookup in the incidence dictionary (`self.incidence`). -/
def incLookup (inc : List (Node × Nat)) (n : Node) : Option Nat :=
  alookup inc n

/-- Assignment to the incidence dictionary: update the entry in place, or
add the key when absent. -/
def incSet : List (Node × Nat) → Node → Nat → List (Node × Nat)
  | [], n, v => [(n, v)]
  | (m, w) :: rest, n, v =>
    if n = m then (m, v) :: rest else (m, w) :: incSet rest n v

/-- The per-child bookkeeping of a `visit` step of `update_graph`: for each
child in edge order, bump its incidence count when already discovered,
otherwise push a `visit` for it and record an incidence count of 1.
Pushing onto the Python list end and popping from the end is modelled with
the head of the list as the top of the stack. -/
def pushChildren : List Node → List Op → List (Node × Nat) → List Op × List (Node × Nat)
  | [], st, inc => (st, inc)
  | c :: cs, st, inc =>
    match incLookup inc c with
    | some k => pushChildren cs st (incSet inc c (k + 1))
    | none => pushChildren cs (Op.visit c :: st) ((c, 1) :: inc)

/-- Outcome of `_Sane.update_graph`: the incidence dictionary on success, a
dependency-loop report (`report_loop`, which exits), or a fatal resolution
error surfaced from `resolve_depends` (which exits). -/
inductive UGResult
  | ok (inc : List (Node × Nat))
  | loopErr (trace : List Node)
  | resolveErr (e : ResErr)
deriving DecidableEq, Repr

/-- Embedding of the `while len(stack) > 0` loop of `_Sane.update_graph`.
A popped `visit` of a node already in `visiting` reports a dependency loop
with the trace of pending `seal` items; otherwise the node's edges are
resolved and its children processed by `pushChildren`; a popped `seal`
removes the node from `visiting`. -/
def ugRun (env : Env) : Nat → List Op → List Node → List (Node × Nat) → Option UGResult
  | 0, _, _, _ => none
  | _ + 1, [], _, inc => some (.ok inc)
  | fuel + 1, .seal n :: rest, visiting, inc =>
    ugRun env fuel rest (visiting.erase n) inc
  | fuel + 1, .visit n :: rest, visiting, inc =>
    if n ∈ visiting then some (.loopErr (getTrace rest))
    else
      match childrenE env n.1 with
      | .error e => some (.resolveErr e)
      | .ok cs =>
        let p := pushChildren cs (Op.seal n :: rest) inc
        ugRun env fuel p.1 (n :: visiting) p.2

/-- One decrement of `get_toposort`: `incidence[item] -= 1`, appending the
node to the next wave when the count reaches zero.  A missing key is a
Python `KeyError` (`none`).  Counts are naturals; the append condition
`k = 1` is exactly the source's "new value is 0" test, since a Python count
that has gone negative can never return to zero. -/
def decEdge (inc : List (Node × Nat)) (acc : List Node) (m : Node) :
    Option (List (Node × Nat) × List Node) :=
  match incLookup inc m with
  | none => none
  | some k => some (incSet inc m (k - 1), if k = 1 then acc ++ [m] else acc)

/-- Process one scheduled node of the current wave: decrement the incidence
count of each of its dependency edges, in edge order. -/
def procNode (env : Env) (st : List (Node × Nat) × List Node) (r : Node) :
    Option (List (Node × Nat) × List Node) :=
  match childrenE env r.1 with
  | .error _ => none
  | .ok cs => cs.foldlM (fun p c => decEdge p.1 p.2 c) st

/-- Outcome of the wave computation of `get_toposort`: either the list of
waves (in discovery order, root first — the source reverses it at the end),
or an uncaught exception (`KeyError` on a missing incidence entry; both are
unreachable in runs that follow a successful `update_graph`). -/
inductive TRes
  | crash
  | ok (waves : List (List Node))
deriving DecidableEq, Repr

/-- Embedding of the `while len(roots) > 0` loop of `_Sane.get_toposort`
(operating on `incidence = self.incidence.copy()`). -/
def wavesRun (env : Env) : Nat → List Node → List (Node × Nat) → Option TRes
  | 0, _, _ => none
  | _ + 1, [], _ => some (.ok [])
  | fuel + 1, r :: rs, inc =>
    match (r :: rs).foldlM (procNode env) (inc, []) with
    | none => some .crash
    | some (inc', next) =>
      match wavesRun env fuel next inc' with
      | none => none
      | some .crash => some .crash
      | some (.ok ws) => some (.ok ((r :: rs) :: ws))

/-- Embedding of `_Sane.get_toposort`: run the wave loop from the requested
root and reverse, so that dependencies come first. -/
def getToposort (env : Env) (root : Node) (fuel : Nat) (inc : List (Node × Nat)) :
    Option TRes :=
  match wavesRun env fuel [root] inc with
  | none => none
  | some .crash => some .crash
  | some (.ok ws) => some (.ok ws.reverse)

/-- Serial execution of one wave (`run_tree`, `self.thread_exe is None`
branch): invoke each node's operation as `func(*args)` in wave order; the
first raised error is reported with that node's function
(`report_func_failed`) and aborts the run. -/
def runWaveSerial (op : Func → PassedArgs → Option Nat) :
    List Node → List (Func × PassedArgs) × Option (Func × Nat)
  | [] => ([], none)
  | (f, a) :: rest =>
    match op f (.plain a) with
    | none =>
      let p := runWaveSerial op rest
      ((f, .plain a) :: p.1, p.2)
    | some e => ([(f, .plain a)], some (f, e))

/-- Concurrent execution of one wave (`run_tree`, thread-pool branch, with
`--verbose` off).  The generator expression submits and awaits futures one
at a time; each submission passes the argument tuple as a single positional
argument (`single`).  When a future raises, `report_func_failed(func, e)`
is called with the enclosing `func` variable — which still holds `run_tree`'s
own parameter, the root function — not the function of the failing future. -/
def runWaveConc (op : Func → PassedArgs → Option Nat) (reportF : Func) :
    List Node → List (Func × PassedArgs) × Option (Func × Nat)
  | [] => ([], none)
  | (f, a) :: rest =>
    match op f (.single a) with
    | none =>
      let p := runWaveConc op reportF rest
      ((f, .single a) :: p.1, p.2)
    | some e => ([(f, .single a)], some (reportF, e))

/-- Execution of the non-final waves of the toposort (`for slice_ in toposort[:-1]`),
serially or on the worker pool; the first failure aborts (the source exits
via `report_func_failed`). -/
def runWaves (op : Func → PassedArgs → Option Nat) (conc : Bool) (reportF : Func) :
    List (List Node) → List (Func × PassedArgs) × Option (Func × Nat)
  | [] => ([], none)
  | w :: ws =>
    let p := if conc then runWaveConc op reportF w else runWaveSerial op w
    match p.2 with
    | some fe => (p.1, some fe)
    | none =>
      let q := runWaves op conc reportF ws
      (p.1 ++ q.1, q.2)

/-- Terminal outcome of `_Sane.run_tree`.  `finished` carries the invocation
list (in invocation order), the failure reported by `report_func_failed` (if
any), and the contents of `self.incidence` after the run — `update_graph`
writes into the singleton's persistent `self.incidence` dictionary, and
`get_toposort` only mutates a copy, so this state survives into any further
`run_tree` call of the same process. -/
inductive RunResult
  | loopErr (trace : List Node)
  | resolveErr (e : ResErr)
  | topoErr
  | finished (invocs : List (Func × PassedArgs)) (failed : Option (Func × Nat))
      (incAfter : List (Node × Nat))
deriving DecidableEq, Repr

/-- Embedding of `_Sane.run_tree`: build the graph from the persistent
incidence state `inc₀`, topologically sort, execute all waves but the last,
then execute `toposort[-1][0]` — the first wave before reversal is the
initial `roots = [(func, args)]`, so the final call is the requested root,
invoked as `func(*args)` in both modes. -/
def runTree (env : Env) (op : Func → PassedArgs → Option Nat) (conc : Bool)
    (root : Node) (fuel : Nat) (inc₀ : List (Node × Nat)) : Option RunResult :=
  match ugRun env fuel [.visit root] [] inc₀ with
  | none => none
  | some (.loopErr tr) => some (.loopErr tr)
  | some (.resolveErr e) => some (.resolveErr e)
  | some (.ok inc) =>
    match wavesRun env fuel [root] inc with
    | none => none
    | some .crash => some .topoErr
    | some (.ok ws) =>
      match ws with
      | [] => some .topoErr
      | w₀ :: _ =>
        match w₀ with
        | [] => some .topoErr
        | fin :: _ =>
          let p := runWaves op conc root.1 ws.reverse.dropLast
          match p.2 with
          | some fe => some (.finished p.1 (some fe) inc)
          | none =>
            match op fin.1 (.plain fin.2) with
            | none => some (.finished (p.1 ++ [(fin.1, .plain fin.2)]) none inc)
            | some e => some (.finished (p.1 ++ [(fin.1, .plain fin.2)]) (some (fin.1, e)) inc)

/-- Behaviour of a call to the wrapper closure returned by
`_Sane.cmd_decorator` (and, with `a = []`, by `_Sane.task_decorator`). -/
inductive WrapperCall
  | warnDirect (invocation : Func × PassedArgs)
  | tree (result : Option RunResult)
deriving DecidableEq, Repr

/-- Embedding of the `cmd` / `task` closures: before finalization the call
warns (`Calling a @cmd from outside other @cmds or @tasks ignores @depends.`)
and invokes the wrapped function directly as `func(*args)`, running none of
its dependencies; after finalization it delegates to `run_tree`. -/
def wrapperCall (env : Env) (op : Func → PassedArgs → Option Nat) (conc : Bool)
    (fuel : Nat) (inc₀ : List (Node × Nat)) (finalized : Bool) (f : Func) (a : Args) :
    WrapperCall :=
  if finalized then .tree (runTree env op conc (f, a) fuel inc₀)
  else .warnDirect (f, .plain a)

/-- Outcome of declaring a `@cmd` (`_Sane.cmd_decorator`, duplicate-name
check).  `self.cmds` stores the bare function under its name
(`self.cmds[func.__name__] = func`); on a duplicate, the source executes
`other_, other_context = self.cmds[func.__name__]` — unpacking the stored
bare function object into a pair, which raises `TypeError` before any error
message is printed.  `duplicateReported` is the outcome the error branch was
written to produce (an error naming both declaration sites); the definition
can never return it. -/
inductive DeclResult
  | registered (cmds : List (String × Func))
  | crashTypeError
  | duplicateReported (previous current : Func)
deriving DecidableEq, Repr

/-- Embedding of the duplicate-name path of `_Sane.cmd_decorator`. -/
def cmdDeclare (cmds : List (String × Func)) (name : String) (f : Func) : DeclResult :=
  match alookup cmds name with
  | some _ => .crashTypeError
  | none => .registered (cmds ++ [(name, f)])

/-- A node reachable from the requested root along resolved dependency
edges: the nodes `update_graph` discovers and `run_tree` must execute. -/
inductive Reachable (env : Env) (root : Node) : Node → Prop
  | root : Reachable env root root
  | step {n m : Node} : Reachable env root n → m ∈ funcChildren env n.1 →
      Reachable env root m

/-- Every registered function's dependency edges resolve without error. -/
def ResolvesAll (env : Env) : Prop :=
  ∀ f ∈ env.registry.map Prod.fst, (childrenE env f).toOption.isSome = true

/-- A witness of acyclicity of the declared dependency graph: a rank
function that strictly decreases along every dependency edge. -/
def RankOk (env : Env) (rank : Func → Nat) : Prop :=
  ∀ f ∈ env.registry.map Prod.fst, ∀ c ∈ funcChildren env f, rank c.1 < rank f

/-- Every node a run can ever discover: the root plus every edge target
mentioned in the registry. -/
def mentioned (env : Env) (root : Node) : List Node :=
  root :: env.registry.flatMap fun fp => funcChildren env fp.1

/-- Sufficient fuel for `update_graph` and `get_toposort` (established
below): three steps per discoverable node plus slack. -/
def ugFuel (env : Env) (root : Node) : Nat :=
  3 * (mentioned env root).dedup.length + 3

/-- Nodes discoverable but not yet recorded in the incidence dictionary. -/
def slack (env : Env) (root : Node) (inc : List (Node × Nat)) : Nat :=
  ((mentioned env root).dedup.filter fun m => (incLookup inc m).isNone).length

/-- Decreasing measure of the `update_graph` loop. -/
def ugMeasure (env : Env) (root : Node) (stack : List Op) (inc : List (Node × Nat)) : Nat :=
  3 * slack env root inc + stack.length + (visits stack).length + 1

/-- The nodes pushed as fresh `visit` operations by `pushChildren`, in push
order (mirror of the stack component of `pushChildren`). -/
def pushedList : List Node → List (Node × Nat) → List Node
  | [], _ => []
  | c :: cs, inc =>
    match incLookup inc c with
    | some k => pushedList cs (incSet inc c (k + 1))
    | none => c :: pushedList cs ((c, 1) :: inc)

/-- Structural invariant of the traversal stack: every pending `visit` has
strictly smaller rank than every `seal` below it (its DFS ancestors). -/
def StackOK (rank : Func → Nat) : List Op → Prop
  | [] => True
  | .visit v :: rest => (∀ s ∈ seals rest, rank v.1 < rank s.1) ∧ StackOK rank rest
  | .seal _ :: rest => StackOK rank rest

/-- Remaining in-degree of `m` once the nodes of `P` have been processed:
the edge occurrences of `m` among children of enumerated nodes outside `P`. -/
def remCount (env : Env) (doneF P : List Node) (m : Node) : Nat :=
  ((doneF.filter fun n => decide (n ∉ P)).map fun n => (funcChildren env n.1).count m).sum

/-- The waves produced by `get_toposort` (pre-reversal) list every node's
dependency edges strictly later: children of a wave's nodes live in later
waves. -/
def ChildrenLater (env : Env) : List (List Node) → Prop
  | [] => True
  | w :: ws => (∀ n ∈ w, ∀ m ∈ funcChildren env n.1, m ∈ ws.flatten) ∧ ChildrenLater env ws

/-- The `@depends(on_tag=g)` edge of a dependent replaced by explicit
`@depends(on_task=...)` edges on the current members of the tag. -/
def retagProps (p : Props) (ms : List Func) : Props :=
  { cmdDeps := p.cmdDeps, taskDeps := p.taskDeps ++ ms.map .direct, tagDeps := [] }

/-- Replace the registered metadata of one function. -/
def setProps (env : Env) (link : Func) (q : Props) : Env :=
  { env with registry := env.registry.map fun fp => if fp.1 = link then (link, q) else fp }

/-- An operation map under which no operation ever raises. -/
def opNone : Func → PassedArgs → Option Nat := fun _ _ => none

/-- The diamond graph of the specification's testable properties: `A = 0`
depends on `B = 1` and `C = 2`; `B` and `C` each depend on `D = 3` (all are
tasks, so every argument tuple is empty). -/
def diamondEnv : Env :=
  { registry := [(0, { taskDeps := [.direct 1, .direct 2] }),
                 (1, { taskDeps := [.direct 3] }),
                 (2, { taskDeps := [.direct 3] }),
                 (3, {})],
    cmds := [], tasks := [], tags := [], sig := fun _ => (0, 0) }

/-- A rank witness of the diamond's acyclicity. -/
def diamondRank : Func → Nat := fun f => 3 - f

/-- The three-task cycle `A = 0 → B = 1 → C = 2 → A`. -/
def cycleEnv : Env :=
  { registry := [(0, { taskDeps := [.direct 1] }),
                 (1, { taskDeps := [.direct 2] }),
                 (2, { taskDeps := [.direct 0] })],
    cmds := [], tasks := [], tags := [], sig := fun _ => (0, 0) }

/-- A two-node chain: `A = 0` depends on the task `B = 1`. -/
def chainEnv : Env :=
  { registry := [(0, { taskDeps := [.direct 1] }), (1, {})],
    cmds := [], tasks := [], tags := [], sig := fun _ => (0, 0) }

/-- A root `0` depending, by direct function reference, on the `@cmd` `1`
(declared with two mandatory parameters) with the one-element argument tuple
`[5]`. -/
def c8DirectEnv : Env :=
  { registry := [(0, { cmdDeps := [(.direct 1, [5])] }), (1, {})],
    cmds := [("f", 1)], tasks := [], tags := [],
    sig := fun f => if f = 1 then (2, 0) else (0, 0) }

/-- As `c8DirectEnv`, but the dependency references the `@cmd` by name. -/
def c8ByNameEnv : Env :=
  { registry := [(0, { cmdDeps := [(.byName "f", [5])] }), (1, {})],
    cmds := [("f", 1)], tasks := [], tags := [],
    sig := fun f => if f = 1 then (2, 0) else (0, 0) }

/-- A dependent `link = 0` declared with `@depends(on_tag='g')`, the tag
`g` having members `X = 1`, `Y = 2`, `Z = 3`. -/
def c9TagEnv : Env :=
  { registry := [(0, { tagDeps := ["g"] }), (1, {}), (2, {}), (3, {})],
    cmds := [], tasks := [], tags := [("g", [1, 2, 3])], sig := fun _ => (0, 0) }

/-- Loop invariant of the `update_graph` traversal.  `vis` is the (ghost)
list of nodes whose `visit` step has already run, most recent first;
`visiting` is the Python `visiting` set; `inc` the incidence dictionary. -/
structure UGInv (env : Env) (root : Node) (rank : Func → Nat)
    (stack : List Op) (visiting : List Node) (inc : List (Node × Nat))
    (vis : List Node) : Prop where
  hvisiting : visiting = seals stack
  hopen : ∀ s ∈ seals stack, s ∈ vis
  hstackok : StackOK rank stack
  hreachVis : ∀ x ∈ vis, Reachable env root x
  hreachPend : ∀ v ∈ visits stack, Reachable env root v
  hdom : ∀ m, (incLookup inc m).isSome = true ↔ ∃ n ∈ vis, m ∈ funcChildren env n.1
  hval : ∀ m k, incLookup inc m = some k →
    k = (vis.map fun n => (funcChildren env n.1).count m).sum
  hfresh : ∀ v ∈ visits stack, v ∉ vis
  hnodupPend : (visits stack).Nodup
  hpendDom : ∀ v ∈ visits stack, v ≠ root → (incLookup inc v).isSome = true
  hdomLoc : ∀ m, (incLookup inc m).isSome = true → m ∈ vis ∨ m ∈ visits stack
  hnodupVis : vis.Nodup
  hvisDom : ∀ p ∈ vis, p ≠ root → (incLookup inc p).isSome = true

/-- What `update_graph` has computed when its stack empties: `doneF` is an
enumeration (without repetition) of the visited nodes, all reachable; the
incidence dictionary holds exactly the discovered nodes (children of visited
nodes), each mapped to its total in-edge count from visited parents. -/
structure UGFinal (env : Env) (root : Node) (incF : List (Node × Nat))
    (doneF : List Node) : Prop where
  nodup : doneF.Nodup
  reach : ∀ x ∈ doneF, Reachable env root x
  domIff : ∀ m, (incLookup incF m).isSome = true ↔ ∃ n ∈ doneF, m ∈ funcChildren env n.1
  val : ∀ m k, incLookup incF m = some k →
    k = (doneF.map fun n => (funcChildren env n.1).count m).sum
  domIn : ∀ m, (incLookup incF m).isSome = true → m ∈ doneF

/-- Number of occurrences of a value in a list (used to state the
exactly-once property of the execution order). -/
def occurrences {α : Type} [DecidableEq α] (y : α) (l : List α) : Nat :=
  (l.filter fun z => decide (z = y)).length

/-- Loop invariant of the `get_toposort` wave loop, at loop entry: `P` is
the (ghost) concatenation of the already-emitted waves, `roots` the wave
about to be emitted, `inc` the working copy of the incidence dictionary,
`incF` its initial contents, `doneF` the nodes visited by `update_graph`. -/
structure WInv (env : Env) (root : Node) (doneF : List Node) (incF : List (Node × Nat))
    (roots : List Node) (inc : List (Node × Nat)) (P : List Node) : Prop where
  hPR : ∀ x ∈ P ++ roots, x ∈ doneF
  hnd : (P ++ roots).Nodup
  hdomEq : ∀ m, (incLookup inc m).isSome = (incLookup incF m).isSome
  hval : ∀ m k, incLookup inc m = some k → k = remCount env doneF P m
  hroots : ∀ m, m ∈ roots ↔ m ∈ doneF ∧ m ∉ P ∧ remCount env doneF P m = 0
  hPz : ∀ m ∈ P, remCount env doneF P m = 0
  hrootIn : root ∈ P ++ roots

/-- C2: for the diamond (`A = 0` depends on `B = 1` and `C = 2`; `B` and
`C` each depend on `D = 3`), `update_graph` computes incidence counts
`D ↦ 2, C ↦ 1, B ↦ 1`, and `get_toposort` computes exactly the wave
sequence `[ [D], [B, C], [A] ]`: `D` alone first, `B` and `C` together in
the middle wave, `A` alone in the final wave. -/
theorem diamond_wave_schedule :
    ugRun diamondEnv 20 [.visit (0, [])] [] [] =
      some (.ok [((3, []), 2), ((2, []), 1), ((1, []), 1)]) ∧
    getToposort diamondEnv (0, []) 20 [((3, []), 2), ((2, []), 1), ((1, []), 1)] =
      some (.ok [[(3, [])], [(1, []), (2, [])], [(0, [])]]) := by
  constructor <;> decide

/-- C4: for the cycle `A = 0 → B = 1 → C = 2 → A`, `update_graph` reports a
dependency loop — for every operation map and in either execution mode, so
in particular before any of `A`, `B`, `C` is executed (only the `finished`
outcome carries invocations) — and the trace of pending `seal` frames,
which `report_loop` prints in reverse, lists `A`, `B`, `C` in traversal
order. -/
theorem cycle_reported_before_execution :
    (∀ op conc, runTree cycleEnv op conc (0, []) 20 [] =
      some (.loopErr [(2, []), (1, []), (0, [])])) ∧
    [((2 : Func), ([] : Args)), (1, []), (0, [])].reverse = [(0, []), (1, []), (2, [])] := by
  refine ⟨fun op conc => ?_, by decide⟩
  have h : ugRun cycleEnv 20 [.visit (0, [])] [] [] =
      some (.loopErr [(2, []), (1, []), (0, [])]) := by decide
  simp [runTree, h]

/-- C3 (code bug): in a concurrent run of the diamond in which `B = 1`'s
operation raises error `7`, the run is aborted after `B`'s wave — `A` is
never invoked — but the failure is reported for the root function `A = 0`
(`report_func_failed` receives `run_tree`'s own `func` parameter), not for
the failing node `B`. -/
theorem concurrent_failure_misreports_failing_node :
    runTree diamondEnv (fun f _ => if f = 1 then some 7 else none) true (0, []) 20 [] =
      some (.finished [(3, .single []), (1, .single [])] (some (0, 7))
        [((3, []), 2), ((2, []), 1), ((1, []), 1)]) := by
  decide

/-- C5 (code bug): on the diamond with no failing operation, the serial run
invokes every node as `func(*args)` (`plain`), while the concurrent run
submits each non-final node's tuple as a single positional argument
(`single`, from `submit(fn, args)`), so the two runs do not invoke the
operations with the same argument tuples. -/
theorem concurrent_invocations_differ_from_serial :
    runTree diamondEnv opNone false (0, []) 20 [] =
      some (.finished [(3, .plain []), (1, .plain []), (2, .plain []), (0, .plain [])]
        none [((3, []), 2), ((2, []), 1), ((1, []), 1)]) ∧
    runTree diamondEnv opNone true (0, []) 20 [] =
      some (.finished [(3, .single []), (1, .single []), (2, .single []), (0, .plain [])]
        none [((3, []), 2), ((2, []), 1), ((1, []), 1)]) ∧
    ([(3, .plain []), (1, .plain []), (2, .plain []), ((0 : Func), PassedArgs.plain [])] ≠
      [(3, .single []), (1, .single []), (2, .single []), (0, .plain [])]) := by
  refine ⟨by decide, by decide, by decide⟩

/-- C6 (code bug): `self.incidence` is initialized once per process and
never cleared, so a second `run_tree` request for `A = 0` (which depends on
`B = 1`) starts from the incidence state left by the first run: `B`'s count
is bumped to 2, is only decremented to 1 during the new toposort, and `B`
is never scheduled — the second request executes `A` alone. -/
theorem incidence_persists_across_runs :
    runTree chainEnv opNone false (0, []) 20 [] =
      some (.finished [(1, .plain []), (0, .plain [])] none [((1, []), 1)]) ∧
    runTree chainEnv opNone false (0, []) 20 [((1, []), 1)] =
      some (.finished [(0, .plain [])] none [((1, []), 2)]) ∧
    ((1 : Func), PassedArgs.plain ([] : Args)) ∉ [((0 : Func), PassedArgs.plain ([] : Args))] := by
  refine ⟨by decide, by decide, by decide⟩

/-- C7 (code bug): declaring a second `@cmd` under an already-registered
name does not produce the intended error naming both declaration sites; the
duplicate branch unpacks the stored bare function object
(`other_, other_context = self.cmds[func.__name__]`) and crashes with
`TypeError` before printing anything. -/
theorem duplicate_cmd_name_crashes_unpacking :
    cmdDeclare [] "serve" 10 = .registered [("serve", 10)] ∧
    cmdDeclare [("serve", 10)] "serve" 11 = .crashTypeError ∧
    ∀ p c, cmdDeclare [("serve", 10)] "serve" 11 ≠ .duplicateReported p c := by
  refine ⟨by decide, by decide, fun p c h => ?_⟩
  have h2 : cmdDeclare [("serve", 10)] "serve" 11 = .crashTypeError := by decide
  rw [h2] at h
  exact DeclResult.noConfusion h

/-- C8 (counterexample): a dependency on the `@cmd` `1` — declared with two
mandatory parameters — given by direct function reference with the
one-element argument tuple `[5]` is not rejected: resolution succeeds, no
arity-mismatch error is raised, and the ill-typed node is scheduled and
executed (the arity check of `resolve_depends` runs only in the
string-reference branch). -/
theorem direct_ref_bad_arity_not_rejected :
    ([5] : Args).length < (c8DirectEnv.sig 1).1 ∧
    runTree c8DirectEnv opNone false (0, []) 20 [] =
      some (.finished [(1, .plain [5]), (0, .plain [])] none [((1, [5]), 1)]) ∧
    runTree c8DirectEnv opNone false (0, []) 20 [] ≠
      some (.resolveErr .arityMismatch) := by
  refine ⟨by decide, by decide, by decide⟩

/-- C8 (amended): a dependency on a command referenced **by name** whose
argument tuple length lies outside `[mandatory, mandatory + optional]` of
the command's declared parameters fails with an arity-mismatch error at
resolution time, during the first `update_graph` visit — before any node of
the graph is executed (the `resolveErr` outcome carries no invocations) —
for every operation map and in either execution mode. -/
theorem byname_bad_arity_fails_at_resolution
    (env : Env) (op : Func → PassedArgs → Option Nat) (conc : Bool)
    (rootF : Func) (rootArgs : Args) (fuel : Nat) (inc₀ : List (Node × Nat))
    (s : String) (a : Args) (f : Func)
    (hprops : getProps env rootF = { cmdDeps := [(.byName s, a)] })
    (hlook : alookup env.cmds s = some f)
    (harity : a.length < (env.sig f).1 ∨ (env.sig f).1 + (env.sig f).2 < a.length) :
    runTree env op conc (rootF, rootArgs) (fuel + 1) inc₀ =
      some (.resolveErr .arityMismatch) := by
  have hsig : isSignatureCompatible env f a = false := by
    unfold isSignatureCompatible
    rcases harity with h | h <;> simp [h]
  have hc : childrenE env rootF = .error .arityMismatch := by
    unfold childrenE
    rw [hprops]
    simp [mapE, resolveCmd, hlook, hsig, Except.map]
  have hug : ugRun env (fuel + 1) [.visit (rootF, rootArgs)] [] inc₀ =
      some (.resolveErr .arityMismatch) := by
    unfold ugRun
    simp [hc]
  simp [runTree, hug]

/-- Witness for the amended C8 theorem: on `c8ByNameEnv` the by-name
dependency with a one-element tuple against two mandatory parameters makes
the run fail with `arityMismatch` and nothing executes. -/
theorem byname_bad_arity_fails_at_resolution_witness :
    (getProps c8ByNameEnv 0 = { cmdDeps := [(.byName "f", [5])] } ∧
     alookup c8ByNameEnv.cmds "f" = some 1 ∧
     ([5] : Args).length < (c8ByNameEnv.sig 1).1) ∧
    runTree c8ByNameEnv opNone false (0, []) 20 [] =
      some (.resolveErr .arityMismatch) :=
  ⟨⟨by decide, by decide, by decide⟩,
   byname_bad_arity_fails_at_resolution c8ByNameEnv opNone false 0 [] 19 [] "f" [5] 1
     (by decide) (by decide) (Or.inl (by decide))⟩

theorem alookup_map_replace_ne {β : Type} (l : List (Func × β)) (link : Func) (q : β)
    (f : Func) (hne : f ≠ link) :
    alookup (l.map fun fp => if fp.1 = link then (link, q) else fp) f = alookup l f := by
  induction l with
  | nil => rfl
  | cons kv rest ih =>
    obtain ⟨k, v⟩ := kv
    simp only [List.map_cons]
    by_cases hk : k = link
    · rw [show (if (k, v).1 = link then (link, q) else (k, v)) = (link, q) from by simp [hk]]
      subst hk
      rw [alookup, alookup, if_neg hne, if_neg hne]
      exact ih
    · rw [show (if (k, v).1 = link then (link, q) else (k, v)) = (k, v) from by simp [hk]]
      rw [alookup, alookup]
      by_cases hf : f = k
      · rw [if_pos hf, if_pos hf]
      · rw [if_neg hf, if_neg hf]
        exact ih

theorem alookup_map_replace_eq {β : Type} (l : List (Func × β)) (link : Func) (q p : β)
    (h : alookup l link = some p) :
    alookup (l.map fun fp => if fp.1 = link then (link, q) else fp) link = some q := by
  induction l with
  | nil => simp [alookup] at h
  | cons kv rest ih =>
    obtain ⟨k, v⟩ := kv
    simp only [List.map_cons]
    by_cases hk : k = link
    · rw [show (if (k, v).1 = link then (link, q) else (k, v)) = (link, q) from by simp [hk]]
      rw [alookup, if_pos rfl]
    · rw [show (if (k, v).1 = link then (link, q) else (k, v)) = (k, v) from by simp [hk]]
      rw [alookup] at h ⊢
      rw [if_neg (fun hlk => hk hlk.symm)] at h ⊢
      exact ih h

theorem resolveTask_setProps (env : Env) (link : Func) (q : Props) :
    resolveTask (setProps env link q) = resolveTask env := rfl

theorem resolveCmd_setProps (env : Env) (link : Func) (q : Props) :
    resolveCmd (setProps env link q) = resolveCmd env := rfl

theorem tags_setProps (env : Env) (link : Func) (q : Props) :
    (setProps env link q).tags = env.tags := rfl

theorem getProps_setProps_ne (env : Env) (link : Func) (q : Props) (f : Func)
    (hne : f ≠ link) :
    getProps (setProps env link q) f = getProps env f := by
  unfold getProps setProps
  rw [alookup_map_replace_ne _ _ _ _ hne]

theorem childrenE_setProps_ne (env : Env) (link : Func) (q : Props) (f : Func)
    (hne : f ≠ link) :
    childrenE (setProps env link q) f = childrenE env f := by
  unfold childrenE
  rw [getProps_setProps_ne env link q f hne]
  simp only [resolveTask_setProps, resolveCmd_setProps, tags_setProps]

theorem mapE_append {α β : Type} (g : α → Except ResErr β) (l₁ l₂ : List α) :
    mapE g (l₁ ++ l₂) =
      match mapE g l₁ with
      | .error e => .error e
      | .ok b₁ =>
        match mapE g l₂ with
        | .error e => .error e
        | .ok b₂ => .ok (b₁ ++ b₂) := by
  induction l₁ with
  | nil =>
    simp only [List.nil_append, mapE]
    cases mapE g l₂ <;> rfl
  | cons a as ih =>
    simp only [List.cons_append, mapE]
    cases hga : g a with
    | error e => rfl
    | ok b =>
      simp only [List.append_eq]
      rw [ih]
      cases mapE g as with
      | error e => rfl
      | ok bs =>
        cases mapE g l₂ <;> rfl

theorem mapE_direct (env : Env) (ms : List Func) :
    mapE (resolveTask env) (ms.map .direct) = .ok ms := by
  induction ms with
  | nil => rfl
  | cons m ms ih => simp [mapE, resolveTask, ih]

theorem childrenE_retag (env : Env) (link : Func) (p : Props) (g : String) (ms : List Func)
    (hreg : alookup env.registry link = some p) (htag : p.tagDeps = [g])
    (hms : alookup env.tags g = some ms) :
    childrenE (setProps env link (retagProps p ms)) link = childrenE env link := by
  have h2 : getProps (setProps env link (retagProps p ms)) link = retagProps p ms := by
    unfold getProps setProps
    rw [alookup_map_replace_eq _ _ _ p hreg]
    rfl
  have h3 : getProps env link = p := by
    unfold getProps
    rw [hreg]
    rfl
  unfold childrenE
  rw [h2, h3]
  simp only [resolveTask_setProps, resolveCmd_setProps, tags_setProps, retagProps]
  rw [mapE_append, mapE_direct]
  cases htask : mapE (resolveTask env) p.taskDeps with
  | error e => rfl
  | ok ts =>
    cases hcmd : mapE
        (fun ra => (resolveCmd env ra.1 ra.2).map fun g => ((g, ra.2) : Node)) p.cmdDeps with
    | error e => rfl
    | ok cs =>
      simp [htag, hms, List.map_append, List.append_assoc]

theorem ugRun_congr (env₁ env₂ : Env) (h : ∀ f, childrenE env₁ f = childrenE env₂ f) :
    ∀ fuel stack visiting inc,
      ugRun env₁ fuel stack visiting inc = ugRun env₂ fuel stack visiting inc := by
  intro fuel
  induction fuel with
  | zero => intro stack visiting inc; rfl
  | succ fuel ih =>
    intro stack visiting inc
    match stack with
    | [] => rfl
    | .seal n :: rest => simp only [ugRun]; exact ih _ _ _
    | .visit n :: rest =>
      simp only [ugRun]
      by_cases hv : n ∈ visiting
      · simp [hv]
      · simp only [if_neg hv]
        rw [h n.1]
        cases childrenE env₂ n.1 with
        | error e => rfl
        | ok cs => exact ih _ _ _

theorem procNode_congr (env₁ env₂ : Env) (h : ∀ f, childrenE env₁ f = childrenE env₂ f) :
    procNode env₁ = procNode env₂ := by
  funext st r
  unfold procNode
  rw [h r.1]

theorem wavesRun_congr (env₁ env₂ : Env) (h : ∀ f, childrenE env₁ f = childrenE env₂ f) :
    ∀ fuel roots inc, wavesRun env₁ fuel roots inc = wavesRun env₂ fuel roots inc := by
  intro fuel
  induction fuel with
  | zero => intro roots inc; rfl
  | succ fuel ih =>
    intro roots inc
    match roots with
    | [] => rfl
    | r :: rs =>
      simp only [wavesRun, procNode_congr env₁ env₂ h]
      cases (r :: rs).foldlM (procNode env₂) (inc, []) with
      | none => rfl
      | some p =>
        obtain ⟨inc', next⟩ := p
        simp only [ih]

theorem runTree_congr (env₁ env₂ : Env) (h : ∀ f, childrenE env₁ f = childrenE env₂ f)
    (op : Func → PassedArgs → Option Nat) (conc : Bool) (root : Node) (fuel : Nat)
    (inc₀ : List (Node × Nat)) :
    runTree env₁ op conc root fuel inc₀ = runTree env₂ op conc root fuel inc₀ := by
  unfold runTree
  rw [ugRun_congr env₁ env₂ h]
  cases ugRun env₂ fuel [.visit root] [] inc₀ with
  | none => rfl
  | some r =>
    cases r with
    | loopErr tr => rfl
    | resolveErr e => rfl
    | ok inc =>
      simp only [wavesRun_congr env₁ env₂ h]

/-- C9: a dependent `link` declared with a dependency on a tag `g` whose
current members are `ms` behaves, after resolution, identically to the same
dependent declared with explicit task dependencies on each member of `ms`:
for every requested root, operation map, execution mode, fuel and incidence
state, `run_tree` produces the same outcome (same scheduled nodes, same
invocation order, same failure, same final incidence state). -/
theorem tag_dependency_equals_explicit_dependencies
    (env : Env) (op : Func → PassedArgs → Option Nat) (conc : Bool) (root : Node)
    (fuel : Nat) (inc₀ : List (Node × Nat))
    (link : Func) (p : Props) (g : String) (ms : List Func)
    (hreg : alookup env.registry link = some p)
    (htag : p.tagDeps = [g])
    (hms : alookup env.tags g = some ms) :
    runTree env op conc root fuel inc₀ =
      runTree (setProps env link (retagProps p ms)) op conc root fuel inc₀ := by
  apply runTree_congr
  intro f
  by_cases hf : f = link
  · subst hf
    exact (childrenE_retag env f p g ms hreg htag hms).symm
  · exact (childrenE_setProps_ne env link (retagProps p ms) f hf).symm

/-- Witness for C9: on `c9TagEnv` (tag `g` with members `X = 1`, `Y = 2`,
`Z = 3`, dependent `link = 0`), the tag-based run and the explicit-members
run coincide. -/
theorem tag_dependency_equals_explicit_dependencies_witness :
    (alookup c9TagEnv.registry 0 = some { tagDeps := ["g"] } ∧
     Props.tagDeps { tagDeps := ["g"] } = ["g"] ∧
     alookup c9TagEnv.tags "g" = some [1, 2, 3]) ∧
    runTree c9TagEnv opNone false (0, []) 20 [] =
      runTree (setProps c9TagEnv 0 (retagProps { tagDeps := ["g"] } [1, 2, 3]))
        opNone false (0, []) 20 [] :=
  ⟨⟨by decide, by decide, by decide⟩,
   tag_dependency_equals_explicit_dependencies c9TagEnv opNone false (0, []) 20 []
     0 { tagDeps := ["g"] } "g" [1, 2, 3] (by decide) (by decide) (by decide)⟩

theorem incLookup_incSet (inc : List (Node × Nat)) (n : Node) (v : Nat) (m : Node) :
    incLookup (incSet inc n v) m = if m = n then some v else incLookup inc m := by
  induction inc with
  | nil =>
    simp [incSet, incLookup, alookup]
  | cons kw rest ih =>
    obtain ⟨k, w⟩ := kw
    by_cases hnk : n = k
    · subst hnk
      simp only [incSet, if_pos rfl, incLookup, alookup]
      by_cases hmn : m = n
      · simp [hmn]
      · simp [hmn]
    · simp only [incSet, if_neg hnk, incLookup, alookup] at ih ⊢
      by_cases hmk : m = k
      · have hmn : ¬m = n := fun h2 => hnk (h2 ▸ hmk.symm ▸ rfl : n = k)
        have hkn : ¬k = n := fun h2 => hnk h2.symm
        simp [hmk, hmn, hkn]
      · simp only [if_neg hmk]
        exact ih

theorem incLookup_cons (inc : List (Node × Nat)) (c : Node) (v : Nat) (m : Node) :
    incLookup ((c, v) :: inc) m = if m = c then some v else incLookup inc m := rfl

theorem seals_visit (n : Node) (rest : List Op) : seals (.visit n :: rest) = seals rest := rfl

theorem seals_seal (n : Node) (rest : List Op) : seals (.seal n :: rest) = n :: seals rest := rfl

theorem visits_visit (n : Node) (rest : List Op) : visits (.visit n :: rest) = n :: visits rest := rfl

theorem visits_seal (n : Node) (rest : List Op) : visits (.seal n :: rest) = visits rest := rfl

theorem seals_append (l₁ l₂ : List Op) : seals (l₁ ++ l₂) = seals l₁ ++ seals l₂ :=
  List.filterMap_append l₁ l₂ Op.sealNode

theorem visits_append (l₁ l₂ : List Op) : visits (l₁ ++ l₂) = visits l₁ ++ visits l₂ :=
  List.filterMap_append l₁ l₂ Op.visitNode

theorem seals_map_visit (l : List Node) : seals (l.map Op.visit) = [] := by
  induction l with
  | nil => rfl
  | cons a as ih =>
    show seals (.visit a :: as.map Op.visit) = []
    rw [seals_visit]
    exact ih

theorem visits_map_visit (l : List Node) : visits (l.map Op.visit) = l := by
  induction l with
  | nil => rfl
  | cons a as ih =>
    show visits (.visit a :: as.map Op.visit) = a :: as
    rw [visits_visit, ih]

theorem pushChildren_stack (cs : List Node) (st : List Op) (inc : List (Node × Nat)) :
    (pushChildren cs st inc).1 = (pushedList cs inc).reverse.map Op.visit ++ st := by
  induction cs generalizing st inc with
  | nil => rfl
  | cons c cs ih =>
    simp only [pushChildren, pushedList]
    cases h : incLookup inc c with
    | some k => simp only [ih]
    | none =>
      rw [ih]
      simp [List.map_append]

theorem pushChildren_inc_some (cs : List Node) (st : List Op) (inc : List (Node × Nat))
    (m : Node) (k : Nat) (h : incLookup inc m = some k) :
    incLookup (pushChildren cs st inc).2 m = some (k + cs.count m) := by
  induction cs generalizing st inc k with
  | nil => simpa using h
  | cons c cs ih =>
    simp only [pushChildren]
    cases hc : incLookup inc c with
    | some j =>
      by_cases hmc : m = c
      · subst hmc
        rw [h] at hc
        cases hc
        have h2 : incLookup (incSet inc m (k + 1)) m = some (k + 1) := by
          rw [incLookup_incSet]; simp
        rw [ih _ _ _ h2]
        simp [List.count_cons]
        omega
      · have h2 : incLookup (incSet inc c (j + 1)) m = some k := by
          rw [incLookup_incSet, if_neg hmc]; exact h
        rw [ih _ _ _ h2]
        simp [List.count_cons, hmc]
    | none =>
      have hmc : ¬m = c := fun h2 => by rw [h2, hc] at h; cases h
      have h2 : incLookup ((c, 1) :: inc) m = some k := by
        rw [incLookup_cons, if_neg hmc]; exact h
      rw [ih _ _ _ h2]
      simp [List.count_cons, hmc]

theorem pushChildren_inc_none (cs : List Node) (st : List Op) (inc : List (Node × Nat))
    (m : Node) (h : incLookup inc m = none) :
    incLookup (pushChildren cs st inc).2 m =
      if m ∈ cs then some (cs.count m) else none := by
  induction cs generalizing st inc with
  | nil => simpa using h
  | cons c cs ih =>
    simp only [pushChildren]
    cases hc : incLookup inc c with
    | some j =>
      have hmc : ¬m = c := fun h2 => by rw [h2, hc] at h; cases h
      have h2 : incLookup (incSet inc c (j + 1)) m = none := by
        rw [incLookup_incSet, if_neg hmc]; exact h
      rw [ih _ _ h2]
      simp [List.count_cons, hmc, List.mem_cons]
    | none =>
      by_cases hmc : m = c
      · subst hmc
        have h2 : incLookup ((m, 1) :: inc) m = some 1 := by
          rw [incLookup_cons, if_pos rfl]
        rw [pushChildren_inc_some _ _ _ _ _ h2]
        simp [List.count_cons]
        omega
      · have h2 : incLookup ((c, 1) :: inc) m = none := by
          rw [incLookup_cons, if_neg hmc]; exact h
        rw [ih _ _ h2]
        simp [List.count_cons, hmc, List.mem_cons]

theorem pushedList_mem_iff (cs : List Node) (inc : List (Node × Nat)) (v : Node) :
    v ∈ pushedList cs inc ↔ v ∈ cs ∧ incLookup inc v = none := by
  induction cs generalizing inc with
  | nil => simp [pushedList]
  | cons c cs ih =>
    simp only [pushedList]
    cases hc : incLookup inc c with
    | some j =>
      rw [ih]
      rw [incLookup_incSet]
      constructor
      · rintro ⟨hv, hl⟩
        by_cases hvc : v = c
        · rw [if_pos hvc] at hl; cases hl
        · rw [if_neg hvc] at hl
          exact ⟨List.mem_cons_of_mem _ hv, hl⟩
      · rintro ⟨hv, hl⟩
        by_cases hvc : v = c
        · rw [hvc, hc] at hl; cases hl
        · rcases List.mem_cons.mp hv with h | h
          · exact absurd h hvc
          · exact ⟨h, by rw [if_neg hvc]; exact hl⟩
    | none =>
      simp only [List.mem_cons]
      rw [ih, incLookup_cons]
      constructor
      · rintro (hvc | ⟨hv, hl⟩)
        · exact ⟨Or.inl hvc, hvc ▸ hc⟩
        · by_cases hvc : v = c
          · rw [if_pos hvc] at hl; cases hl
          · rw [if_neg hvc] at hl
            exact ⟨Or.inr hv, hl⟩
      · rintro ⟨hv | hv, hl⟩
        · exact Or.inl hv
        · by_cases hvc : v = c
          · exact Or.inl hvc
          · exact Or.inr ⟨hv, by rw [if_neg hvc]; exact hl⟩

theorem pushedList_nodup (cs : List Node) (inc : List (Node × Nat)) :
    (pushedList cs inc).Nodup := by
  induction cs generalizing inc with
  | nil => exact List.nodup_nil
  | cons c cs ih =>
    simp only [pushedList]
    cases hc : incLookup inc c with
    | some j => exact ih _
    | none =>
      refine List.nodup_cons.mpr ⟨?_, ih _⟩
      intro hmem
      have := (pushedList_mem_iff _ _ _).mp hmem
      rw [incLookup_cons, if_pos rfl] at this
      exact Option.noConfusion this.2

theorem slack_incSet (env : Env) (root : Node) (inc : List (Node × Nat)) (c : Node)
    (k v : Nat) (hc : incLookup inc c = some k) :
    slack env root (incSet inc c v) = slack env root inc := by
  unfold slack
  congr 1
  apply List.filter_congr
  intro m _
  rw [incLookup_incSet]
  by_cases hmc : m = c
  · rw [if_pos hmc, hmc, hc]
    rfl
  · rw [if_neg hmc]

theorem filter_cons_isNone_len (inc : List (Node × Nat)) (c : Node) (v : Nat)
    (hc : incLookup inc c = none) :
    ∀ u : List Node, u.Nodup → c ∈ u →
      (u.filter fun m => (incLookup ((c, v) :: inc) m).isNone).length + 1 =
        (u.filter fun m => (incLookup inc m).isNone).length := by
  intro u
  induction u with
  | nil => intro _ h; cases h
  | cons a u ih =>
    intro hnd hmem
    have hnd2 := List.nodup_cons.mp hnd
    by_cases hac : a = c
    · subst hac
      have hpred1 : (incLookup ((a, v) :: inc) a).isNone = false := by
        rw [incLookup_cons, if_pos rfl]; rfl
      have hpred2 : (incLookup inc a).isNone = true := by rw [hc]; rfl
      have heq : (u.filter fun m => (incLookup ((a, v) :: inc) m).isNone) =
          (u.filter fun m => (incLookup inc m).isNone) := by
        apply List.filter_congr
        intro m hm
        have hma : ¬m = a := fun h => hnd2.1 (h ▸ hm)
        rw [incLookup_cons, if_neg hma]
      rw [List.filter_cons, List.filter_cons, hpred1, hpred2, heq]
      simp
    · have hca : c ∈ u := by
        rcases List.mem_cons.mp hmem with h | h
        · exact absurd h.symm hac
        · exact h
      have hpred : (incLookup ((c, v) :: inc) a).isNone = (incLookup inc a).isNone := by
        rw [incLookup_cons, if_neg hac]
      rw [List.filter_cons, List.filter_cons, hpred]
      have hrec := ih hnd2.2 hca
      cases hb : (incLookup inc a).isNone with
      | true =>
        simp
        omega
      | false =>
        have hff : ¬(false = true) := Bool.false_ne_true
        simp only [if_neg hff]
        exact hrec

theorem slack_cons (env : Env) (root : Node) (inc : List (Node × Nat)) (c : Node)
    (hmem : c ∈ (mentioned env root).dedup) (hc : incLookup inc c = none) :
    slack env root ((c, 1) :: inc) + 1 = slack env root inc :=
  filter_cons_isNone_len inc c 1 hc (mentioned env root).dedup
    (List.nodup_dedup _) hmem

theorem slack_pushChildren (env : Env) (root : Node) (cs : List Node) (st : List Op)
    (inc : List (Node × Nat)) (hsub : ∀ c ∈ cs, c ∈ (mentioned env root).dedup) :
    slack env root (pushChildren cs st inc).2 + (pushedList cs inc).length =
      slack env root inc := by
  induction cs generalizing st inc with
  | nil => simp [pushChildren, pushedList]
  | cons c cs ih =>
    simp only [pushChildren, pushedList]
    cases hc : incLookup inc c with
    | some k =>
      have := ih st (incSet inc c (k + 1)) (fun x hx => hsub x (List.mem_cons_of_mem _ hx))
      rw [this, slack_incSet env root inc c k (k + 1) hc]
    | none =>
      have h1 := ih (Op.visit c :: st) ((c, 1) :: inc)
        (fun x hx => hsub x (List.mem_cons_of_mem _ hx))
      have h2 := slack_cons env root inc c (hsub c (List.mem_cons_self _ _)) hc
      simp only [List.length_cons]
      omega

theorem alookup_eq_none_of_not_mem {β : Type} (l : List (Func × β)) (f : Func)
    (h : f ∉ l.map Prod.fst) : alookup l f = none := by
  induction l with
  | nil => rfl
  | cons kv rest ih =>
    obtain ⟨k, v⟩ := kv
    simp only [List.map_cons, List.mem_cons] at h
    push_neg at h
    simp only [alookup, if_neg h.1]
    exact ih h.2

theorem childrenE_not_mem (env : Env) (f : Func) (h : f ∉ env.registry.map Prod.fst) :
    childrenE env f = .ok [] := by
  unfold childrenE getProps
  rw [alookup_eq_none_of_not_mem _ _ h]
  rfl

theorem childrenE_ok (env : Env) (hres : ResolvesAll env) (f : Func) :
    childrenE env f = .ok (funcChildren env f) := by
  by_cases hf : f ∈ env.registry.map Prod.fst
  · cases hc : childrenE env f with
    | error e =>
      have := hres f hf
      rw [hc] at this
      cases this
    | ok l =>
      unfold funcChildren
      rw [hc]
      rfl
  · rw [childrenE_not_mem env f hf]
    unfold funcChildren
    rw [childrenE_not_mem env f hf]
    rfl

theorem funcChildren_not_mem (env : Env) (f : Func) (h : f ∉ env.registry.map Prod.fst) :
    funcChildren env f = [] := by
  unfold funcChildren
  rw [childrenE_not_mem env f h]
  rfl

theorem child_mem_mentioned (env : Env) (root : Node) (f : Func) (c : Node)
    (hc : c ∈ funcChildren env f) : c ∈ mentioned env root := by
  by_cases hf : f ∈ env.registry.map Prod.fst
  · unfold mentioned
    refine List.mem_cons_of_mem _ ?_
    rw [List.mem_flatMap]
    rcases List.mem_map.mp hf with ⟨fp, hfp, hfst⟩
    exact ⟨fp, hfp, by rw [hfst]; exact hc⟩
  · rw [funcChildren_not_mem env f hf] at hc
    cases hc

theorem rank_lt_of_child (env : Env) (rank : Func → Nat) (hrank : RankOk env rank)
    (f : Func) (c : Node) (hc : c ∈ funcChildren env f) : rank c.1 < rank f := by
  by_cases hf : f ∈ env.registry.map Prod.fst
  · exact hrank f hf c hc
  · rw [funcChildren_not_mem env f hf] at hc
    cases hc

theorem reach_rank_le (env : Env) (root : Node) (rank : Func → Nat)
    (hrank : RankOk env rank) {n : Node} (h : Reachable env root n) :
    rank n.1 ≤ rank root.1 := by
  induction h with
  | root => exact le_refl _
  | step hr hc ih => exact le_of_lt (lt_of_lt_of_le (rank_lt_of_child env rank hrank _ _ hc) ih)

theorem root_not_child (env : Env) (root : Node) (rank : Func → Nat)
    (hrank : RankOk env rank) {n : Node} (h : Reachable env root n) :
    root ∉ funcChildren env n.1 := by
  intro hmem
  have h1 : rank root.1 < rank n.1 := rank_lt_of_child env rank hrank _ _ hmem
  have h2 : rank n.1 ≤ rank root.1 := reach_rank_le env root rank hrank h
  omega

theorem self_not_child (env : Env) (rank : Func → Nat) (hrank : RankOk env rank)
    (n : Node) : n ∉ funcChildren env n.1 := by
  intro hmem
  have := rank_lt_of_child env rank hrank n.1 n hmem
  omega

theorem stackOK_push (rank : Func → Nat) (ps : List Node) (st : List Op)
    (hst : StackOK rank st)
    (hlt : ∀ v ∈ ps, ∀ s ∈ seals st, rank v.1 < rank s.1) :
    StackOK rank (ps.map Op.visit ++ st) := by
  induction ps with
  | nil => exact hst
  | cons v ps ih =>
    show StackOK rank (.visit v :: (ps.map Op.visit ++ st))
    refine ⟨?_, ih fun x hx => hlt x (List.mem_cons_of_mem _ hx)⟩
    intro s hs
    rw [seals_append, seals_map_visit, List.nil_append] at hs
    exact hlt v (List.mem_cons_self _ _) s hs

theorem slack_nil (env : Env) (root : Node) :
    slack env root [] = (mentioned env root).dedup.length := by
  unfold slack
  congr 1
  apply List.filter_eq_self.mpr
  intro m _
  rfl

/-- Main invariant theorem of `update_graph`: from any state satisfying
`UGInv` with sufficient fuel, the loop finishes with `ok`, and the final
incidence dictionary is the exact in-edge count table of an enumeration
`doneF` of the visited nodes. -/
theorem ugRun_spec (env : Env) (root : Node) (rank : Func → Nat)
    (hres : ResolvesAll env) (hrank : RankOk env rank) :
    ∀ fuel stack visiting inc vis,
      UGInv env root rank stack visiting inc vis →
      ugMeasure env root stack inc ≤ fuel →
      ∃ incF doneF, ugRun env fuel stack visiting inc = some (.ok incF) ∧
        UGFinal env root incF doneF ∧
        (∀ x ∈ vis, x ∈ doneF) ∧ (∀ v ∈ visits stack, v ∈ doneF) := by
  intro fuel
  induction fuel with
  | zero =>
    intro stack visiting inc vis _ hm
    exact absurd hm (by unfold ugMeasure; omega)
  | succ fuel ih =>
    intro stack visiting inc vis hinv hm
    match stack with
    | [] =>
      refine ⟨inc, vis, rfl, ?_, fun x hx => hx, fun v hv => ?_⟩
      · exact
          { nodup := hinv.hnodupVis
            reach := hinv.hreachVis
            domIff := hinv.hdom
            val := hinv.hval
            domIn := fun m hm2 => by
              rcases hinv.hdomLoc m hm2 with h | h
              · exact h
              · simp [visits] at h }
      · simp [visits] at hv
    | .seal n :: rest =>
      have herase : visiting.erase n = seals rest := by
        rw [hinv.hvisiting, seals_seal]
        exact List.erase_cons_head n (seals rest)
      have inv' : UGInv env root rank rest (seals rest) inc vis :=
        { hvisiting := rfl
          hopen := fun s hs => hinv.hopen s (by rw [seals_seal]; exact List.mem_cons_of_mem _ hs)
          hstackok := hinv.hstackok
          hreachVis := hinv.hreachVis
          hreachPend := hinv.hreachPend
          hdom := hinv.hdom
          hval := hinv.hval
          hfresh := hinv.hfresh
          hnodupPend := hinv.hnodupPend
          hpendDom := hinv.hpendDom
          hdomLoc := hinv.hdomLoc
          hnodupVis := hinv.hnodupVis
          hvisDom := hinv.hvisDom }
      have meas' : ugMeasure env root rest inc ≤ fuel := by
        unfold ugMeasure at hm ⊢
        rw [show visits (.seal n :: rest) = visits rest from rfl] at hm
        simp only [List.length_cons] at hm
        omega
      obtain ⟨incF, doneF, hrun, hfin, h1, h2⟩ := ih rest (seals rest) inc vis inv' meas'
      refine ⟨incF, doneF, ?_, hfin, h1, h2⟩
      show ugRun env fuel rest (visiting.erase n) inc = some (.ok incF)
      rw [herase]
      exact hrun
    | .visit n :: rest =>
      have hoknv : (∀ s ∈ seals rest, rank n.1 < rank s.1) ∧ StackOK rank rest :=
        hinv.hstackok
      have hlt := hoknv.1
      have hokr := hoknv.2
      have hnv : n ∉ visiting := by
        rw [hinv.hvisiting, seals_visit]
        intro hmem
        exact absurd (hlt n hmem) (lt_irrefl _)
      have hreachn : Reachable env root n :=
        hinv.hreachPend n (by rw [visits_visit]; exact List.mem_cons_self _ _)
      have hcE := childrenE_ok env hres n.1
      have hcsReach : ∀ c ∈ funcChildren env n.1, Reachable env root c :=
        fun c hc => Reachable.step hreachn hc
      have hrootcs : root ∉ funcChildren env n.1 :=
        root_not_child env root rank hrank hreachn
      have hncs : n ∉ funcChildren env n.1 := self_not_child env rank hrank n
      have hcsMent : ∀ c ∈ funcChildren env n.1, c ∈ (mentioned env root).dedup :=
        fun c hc => (List.mem_dedup).mpr (child_mem_mentioned env root n.1 c hc)
      have hstep : ugRun env (fuel + 1) (.visit n :: rest) visiting inc =
          ugRun env fuel (pushChildren (funcChildren env n.1) (Op.seal n :: rest) inc).1
            (n :: visiting) (pushChildren (funcChildren env n.1) (Op.seal n :: rest) inc).2 := by
        simp only [ugRun, if_neg hnv, hcE]
      have hps : (pushChildren (funcChildren env n.1) (Op.seal n :: rest) inc).1 =
          (pushedList (funcChildren env n.1) inc).reverse.map Op.visit ++ (Op.seal n :: rest) :=
        pushChildren_stack _ _ _
      generalize hcsdef : funcChildren env n.1 = cs at *
      generalize hpldef : pushedList cs inc = pl at *
      generalize hincdef : (pushChildren cs (Op.seal n :: rest) inc).2 = inc' at *
      have hplMem : ∀ v, v ∈ pl ↔ v ∈ cs ∧ incLookup inc v = none := by
        intro v
        rw [← hpldef]
        exact pushedList_mem_iff cs inc v
      have hplNd : pl.Nodup := by rw [← hpldef]; exact pushedList_nodup cs inc
      have hSome : ∀ m k, incLookup inc m = some k →
          incLookup inc' m = some (k + cs.count m) := by
        intro m k h
        rw [← hincdef]
        exact pushChildren_inc_some cs _ inc m k h
      have hNone : ∀ m, incLookup inc m = none →
          incLookup inc' m = if m ∈ cs then some (cs.count m) else none := by
        intro m h
        rw [← hincdef]
        exact pushChildren_inc_none cs _ inc m h
      have hDom' : ∀ m, (incLookup inc' m).isSome = true ↔
          ((incLookup inc m).isSome = true ∨ m ∈ cs) := by
        intro m
        cases hlm : incLookup inc m with
        | some k =>
          rw [hSome m k hlm]
          simp
        | none =>
          rw [hNone m hlm]
          by_cases hmcs : m ∈ cs
          · simp [hmcs]
          · simp [hmcs]
      have hvst : visits ((pl.reverse.map Op.visit) ++ (Op.seal n :: rest)) =
          pl.reverse ++ visits rest := by
        rw [visits_append, visits_map_visit, visits_seal]
      have hsst : seals ((pl.reverse.map Op.visit) ++ (Op.seal n :: rest)) =
          n :: seals rest := by
        rw [seals_append, seals_map_visit, seals_seal, List.nil_append]
      have inv' : UGInv env root rank ((pl.reverse.map Op.visit) ++ (Op.seal n :: rest))
          (n :: visiting) inc' (n :: vis) := by
        refine
          { hvisiting := ?_
            hopen := ?_
            hstackok := ?_
            hreachVis := ?_
            hreachPend := ?_
            hdom := ?_
            hval := ?_
            hfresh := ?_
            hnodupPend := ?_
            hpendDom := ?_
            hdomLoc := ?_
            hnodupVis := ?_
            hvisDom := ?_ }
        · rw [hsst]
          have h0 : visiting = seals rest := by
            have := hinv.hvisiting
            rwa [seals_visit] at this
          rw [h0]
        · intro s hs
          rw [hsst] at hs
          rcases List.mem_cons.mp hs with h | h
          · exact h ▸ List.mem_cons_self _ _
          · exact List.mem_cons_of_mem _
              (hinv.hopen s (by rw [seals_visit]; exact h))
        · refine stackOK_push rank pl.reverse (Op.seal n :: rest) ?_ ?_
          · exact hokr
          · intro v hv s hs
            rw [seals_seal] at hs
            have hvcs : v ∈ cs := ((hplMem v).mp (List.mem_reverse.mp hv)).1
            have h1 : rank v.1 < rank n.1 := by
              have := rank_lt_of_child env rank hrank n.1 v
              rw [hcsdef] at this
              exact this hvcs
            rcases List.mem_cons.mp hs with h | h
            · exact h ▸ h1
            · exact lt_trans h1 (hlt s h)
        · intro x hx
          rcases List.mem_cons.mp hx with h | h
          · exact h ▸ hreachn
          · exact hinv.hreachVis x h
        · intro v hv
          rw [hvst] at hv
          rcases List.mem_append.mp hv with h | h
          · exact hcsReach v ((hplMem v).mp (List.mem_reverse.mp h)).1
          · exact hinv.hreachPend v (by rw [visits_visit]; exact List.mem_cons_of_mem _ h)
        · intro m
          rw [hDom' m, hinv.hdom m]
          constructor
          · rintro (⟨x, hx, hmx⟩ | hmcs)
            · exact ⟨x, List.mem_cons_of_mem _ hx, hmx⟩
            · exact ⟨n, List.mem_cons_self _ _, by rw [hcsdef]; exact hmcs⟩
          · rintro ⟨x, hx, hmx⟩
            rcases List.mem_cons.mp hx with h | h
            · right
              rw [← hcsdef]
              exact h ▸ hmx
            · exact Or.inl ⟨x, h, hmx⟩
        · intro m k hk
          simp only [List.map_cons, List.sum_cons]
          rw [hcsdef]
          cases hlm : incLookup inc m with
          | some k₀ =>
            rw [hSome m k₀ hlm] at hk
            cases hk
            have := hinv.hval m k₀ hlm
            omega
          | none =>
            rw [hNone m hlm] at hk
            by_cases hmcs : m ∈ cs
            · rw [if_pos hmcs] at hk
              cases hk
              have hnotin : ∀ x ∈ vis, m ∉ funcChildren env x.1 := by
                intro x hx hmx
                have : (incLookup inc m).isSome = true :=
                  (hinv.hdom m).mpr ⟨x, hx, hmx⟩
                rw [hlm] at this
                cases this
              have hz : (vis.map fun x => (funcChildren env x.1).count m).sum = 0 := by
                apply List.sum_eq_zero
                intro y hy
                rcases List.mem_map.mp hy with ⟨x, hx, hxy⟩
                rw [← hxy]
                exact List.count_eq_zero.mpr (hnotin x hx)
              omega
            · rw [if_neg hmcs] at hk
              cases hk
        · intro v hv
          rw [hvst] at hv
          rcases List.mem_append.mp hv with h | h
          · obtain ⟨hvcs, hvnone⟩ := (hplMem v).mp (List.mem_reverse.mp h)
            intro hvmem
            rcases List.mem_cons.mp hvmem with h2 | h2
            · exact hncs (h2 ▸ hvcs)
            · by_cases hvroot : v = root
              · exact hrootcs (hvroot ▸ hvcs)
              · have := hinv.hvisDom v h2 hvroot
                rw [hvnone] at this
                cases this
          · intro hvmem
            have hvold : v ∈ visits (Op.visit n :: rest) := by
              rw [visits_visit]
              exact List.mem_cons_of_mem _ h
            rcases List.mem_cons.mp hvmem with h2 | h2
            · have hnd := hinv.hnodupPend
              rw [visits_visit] at hnd
              exact (List.nodup_cons.mp hnd).1 (h2 ▸ h)
            · exact hinv.hfresh v hvold h2
        · rw [hvst]
          refine List.Nodup.append (List.nodup_reverse.mpr hplNd) ?_ ?_
          · have hnd := hinv.hnodupPend
            rw [visits_visit] at hnd
            exact (List.nodup_cons.mp hnd).2
          · intro v hv1 hv2
            obtain ⟨hvcs, hvnone⟩ := (hplMem v).mp (List.mem_reverse.mp hv1)
            by_cases hvroot : v = root
            · exact hrootcs (hvroot ▸ hvcs)
            · have := hinv.hpendDom v
                (by rw [visits_visit]; exact List.mem_cons_of_mem _ hv2) hvroot
              rw [hvnone] at this
              cases this
        · intro v hv hvroot
          rw [hvst] at hv
          rw [hDom' v]
          rcases List.mem_append.mp hv with h | h
          · exact Or.inr ((hplMem v).mp (List.mem_reverse.mp h)).1
          · exact Or.inl (hinv.hpendDom v
              (by rw [visits_visit]; exact List.mem_cons_of_mem _ h) hvroot)
        · intro m hm2
          rw [hDom' m] at hm2
          rw [hvst]
          rcases hm2 with h | hmcs
          · rcases hinv.hdomLoc m h with h2 | h2
            · exact Or.inl (List.mem_cons_of_mem _ h2)
            · rw [visits_visit] at h2
              rcases List.mem_cons.mp h2 with h3 | h3
              · exact Or.inl (h3 ▸ List.mem_cons_self _ _)
              · exact Or.inr (List.mem_append.mpr (Or.inr h3))
          · cases hlm : incLookup inc m with
            | some k =>
              rcases hinv.hdomLoc m (by rw [hlm]; rfl) with h2 | h2
              · exact Or.inl (List.mem_cons_of_mem _ h2)
              · rw [visits_visit] at h2
                rcases List.mem_cons.mp h2 with h3 | h3
                · exact Or.inl (h3 ▸ List.mem_cons_self _ _)
                · exact Or.inr (List.mem_append.mpr (Or.inr h3))
            | none =>
              refine Or.inr (List.mem_append.mpr (Or.inl ?_))
              rw [List.mem_reverse]
              exact (hplMem m).mpr ⟨hmcs, hlm⟩
        · refine List.nodup_cons.mpr ⟨?_, hinv.hnodupVis⟩
          exact hinv.hfresh n (by rw [visits_visit]; exact List.mem_cons_self _ _)
        · intro p hp hproot
          rw [hDom' p]
          rcases List.mem_cons.mp hp with h | h
          · exact Or.inl (hinv.hpendDom p
              (by rw [visits_visit]; exact h ▸ List.mem_cons_self _ _) (h ▸ hproot))
          · exact Or.inl (hinv.hvisDom p h hproot)
      have meas' : ugMeasure env root ((pl.reverse.map Op.visit) ++ (Op.seal n :: rest)) inc'
          ≤ fuel := by
        have hsl : slack env root inc' + pl.length = slack env root inc := by
          rw [← hincdef, ← hpldef]
          exact slack_pushChildren env root cs _ inc hcsMent
        unfold ugMeasure at hm ⊢
        rw [hvst] at *
        rw [show visits (Op.visit n :: rest) = n :: visits rest from rfl] at hm
        simp only [List.length_append, List.length_map, List.length_reverse,
          List.length_cons] at hm ⊢
        omega
      obtain ⟨incF, doneF, hrun, hfin, h1, h2⟩ :=
        ih ((pl.reverse.map Op.visit) ++ (Op.seal n :: rest)) (n :: visiting) inc'
          (n :: vis) inv' meas'
      refine ⟨incF, doneF, ?_, hfin, ?_, ?_⟩
      · rw [hstep, hps]
        exact hrun
      · intro x hx
        exact h1 x (List.mem_cons_of_mem _ hx)
      · intro v hv
        rw [visits_visit] at hv
        rcases List.mem_cons.mp hv with h | h
        · exact h ▸ h1 n (List.mem_cons_self _ _)
        · refine h2 v ?_
          rw [hvst]
          exact List.mem_append.mpr (Or.inr h)

/-- Specification of `update_graph` from its real initial state (fresh
`visiting`, the initial stack `[visit root]`, and — as in a fresh process —
an empty incidence dictionary). -/
theorem ugRun_initial (env : Env) (root : Node) (rank : Func → Nat)
    (hres : ResolvesAll env) (hrank : RankOk env rank) (fuel : Nat)
    (hfuel : ugFuel env root ≤ fuel) :
    ∃ incF doneF, ugRun env fuel [.visit root] [] [] = some (.ok incF) ∧
      UGFinal env root incF doneF ∧ root ∈ doneF := by
  have hnone : ∀ m : Node, incLookup ([] : List (Node × Nat)) m = none := fun m => rfl
  have inv0 : UGInv env root rank [.visit root] [] [] [] :=
    { hvisiting := rfl
      hopen := fun s hs => by simp [seals, Op.sealNode] at hs
      hstackok := ⟨fun s hs => by simp [seals] at hs, trivial⟩
      hreachVis := fun x hx => absurd hx (List.not_mem_nil x)
      hreachPend := fun v hv => by
        rw [visits_visit] at hv
        rcases List.mem_cons.mp hv with h | h
        · exact h ▸ Reachable.root
        · simp [visits] at h
      hdom := fun m => by
        rw [hnone m]
        simp
      hval := fun m k hk => by rw [hnone m] at hk; cases hk
      hfresh := fun v _ hv => absurd hv (List.not_mem_nil v)
      hnodupPend := by
        rw [visits_visit]
        exact List.nodup_cons.mpr ⟨by simp [visits], List.nodup_nil⟩
      hpendDom := fun v hv hne => by
        rw [visits_visit] at hv
        rcases List.mem_cons.mp hv with h | h
        · exact absurd h hne
        · simp [visits] at h
      hdomLoc := fun m hm => by rw [hnone m] at hm; cases hm
      hnodupVis := List.nodup_nil
      hvisDom := fun p hp => absurd hp (List.not_mem_nil p) }
  have meas0 : ugMeasure env root [.visit root] [] ≤ fuel := by
    unfold ugMeasure
    rw [slack_nil]
    unfold ugFuel at hfuel
    have h1 : ([Op.visit root] : List Op).length = 1 := rfl
    have h2 : (visits [Op.visit root]).length = 1 := rfl
    omega
  obtain ⟨incF, doneF, hrun, hfin, _, h2⟩ :=
    ugRun_spec env root rank hres hrank fuel [.visit root] [] [] [] inv0 meas0
  refine ⟨incF, doneF, hrun, hfin, ?_⟩
  exact h2 root (by rw [visits_visit]; exact List.mem_cons_self _ _)

/-- The visited list of a completed `update_graph` from the root enumerates
exactly the reachable nodes. -/
theorem doneF_reachable_iff (env : Env) (root : Node) (incF : List (Node × Nat))
    (doneF : List Node) (hfin : UGFinal env root incF doneF) (hroot : root ∈ doneF) :
    ∀ x, x ∈ doneF ↔ Reachable env root x := by
  intro x
  constructor
  · exact hfin.reach x
  · intro hreach
    induction hreach with
    | root => exact hroot
    | step hr hc ihx => exact hfin.domIn _ ((hfin.domIff _).mpr ⟨_, ihx, hc⟩)

/-- A reachable node other than the root has a reachable parent. -/
theorem reach_parent (env : Env) (root : Node) {m : Node}
    (h : Reachable env root m) (hne : m ≠ root) :
    ∃ n, Reachable env root n ∧ m ∈ funcChildren env n.1 := by
  cases h with
  | root => exact absurd rfl hne
  | step hr hc => exact ⟨_, hr, hc⟩

/-- Every reachable node is mentioned. -/
theorem reach_mem_mentioned (env : Env) (root : Node) {x : Node}
    (h : Reachable env root x) : x ∈ mentioned env root := by
  cases h with
  | root => exact List.mem_cons_self _ _
  | step hr hc => exact child_mem_mentioned env root _ _ hc

/-- A nodup list of reachable nodes is no longer than the deduplicated
mentioned list. -/
theorem reach_list_length_le (env : Env) (root : Node) (l : List Node)
    (hnd : l.Nodup) (hsub : ∀ x ∈ l, Reachable env root x) :
    l.length ≤ (mentioned env root).dedup.length := by
  have hsub2 : l.toFinset ⊆ (mentioned env root).dedup.toFinset := by
    intro x hx
    rw [List.mem_toFinset] at hx ⊢
    rw [List.mem_dedup]
    exact reach_mem_mentioned env root (hsub x hx)
  have h1 := List.toFinset_card_of_nodup hnd
  have h2 := List.toFinset_card_of_nodup (List.nodup_dedup (mentioned env root))
  have h3 := Finset.card_le_card hsub2
  omega

/-- Effect of a sequence of `incidence[item] -= 1` decrements (`decEdge`)
over an edge list `es`, starting from counts that dominate the edge
multiplicities: the fold succeeds, each count drops by the multiplicity, the
dictionary's domain is unchanged, and the nodes appended to the
wave-accumulator are exactly those whose count is consumed to zero. -/
theorem decEdges_spec (es : List Node) :
    ∀ (inc : List (Node × Nat)) (acc : List Node),
      (∀ m k, incLookup inc m = some k → es.count m ≤ k) →
      (∀ m ∈ es, (incLookup inc m).isSome = true) →
      (∀ a ∈ acc, incLookup inc a = some 0) →
      acc.Nodup →
      ∃ inc₂ acc₂,
        es.foldlM (fun p c => decEdge p.1 p.2 c)
          ((inc, acc) : List (Node × Nat) × List Node) = some (inc₂, acc₂) ∧
        (∀ m k, incLookup inc m = some k → incLookup inc₂ m = some (k - es.count m)) ∧
        (∀ m, (incLookup inc₂ m).isSome = (incLookup inc m).isSome) ∧
        acc₂.Nodup ∧
        (∀ m, m ∈ acc₂ ↔ m ∈ acc ∨
          (incLookup inc m = some (es.count m) ∧ es.count m ≠ 0)) := by
  induction es with
  | nil =>
    intro inc acc _ _ _ hnd
    refine ⟨inc, acc, rfl, ?_, fun m => rfl, hnd, ?_⟩
    · intro m k h
      simpa using h
    · intro m
      simp
  | cons e es ih =>
    intro inc acc hbound hdom hacc hnd
    have hesome : ∃ k, incLookup inc e = some k := by
      have hd := hdom e (List.mem_cons_self _ _)
      cases h : incLookup inc e with
      | none => rw [h] at hd; cases hd
      | some k => exact ⟨k, rfl⟩
    obtain ⟨k, hk⟩ := hesome
    have hk1 : es.count e + 1 ≤ k := by
      have := hbound e k hk
      rwa [List.count_cons_self] at this
    have hstep : decEdge inc acc e =
        some (incSet inc e (k - 1), if k = 1 then acc ++ [e] else acc) := by
      unfold decEdge
      rw [hk]
    have hlk1 : ∀ m, incLookup (incSet inc e (k - 1)) m =
        if m = e then some (k - 1) else incLookup inc m := fun m => incLookup_incSet inc e _ m
    have henacc : e ∉ acc := by
      intro hmem
      have := hacc e hmem
      rw [hk] at this
      cases this
      omega
    have hbound₁ : ∀ m k', incLookup (incSet inc e (k - 1)) m = some k' → es.count m ≤ k' := by
      intro m k' h
      rw [hlk1 m] at h
      by_cases hme : m = e
      · rw [if_pos hme] at h
        cases h
        subst hme
        omega
      · rw [if_neg hme] at h
        have := hbound m k' h
        rwa [List.count_cons_of_ne hme] at this
    have hdom₁ : ∀ m ∈ es, (incLookup (incSet inc e (k - 1)) m).isSome = true := by
      intro m hm
      rw [hlk1 m]
      by_cases hme : m = e
      · rw [if_pos hme]; rfl
      · rw [if_neg hme]; exact hdom m (List.mem_cons_of_mem _ hm)
    have hacc₁ : ∀ a ∈ (if k = 1 then acc ++ [e] else acc),
        incLookup (incSet inc e (k - 1)) a = some 0 := by
      intro a ha
      by_cases hk2 : k = 1
      · rw [if_pos hk2] at ha
        rcases List.mem_append.mp ha with h | h
        · have hane : ¬a = e := fun h2 => henacc (h2 ▸ h)
          rw [hlk1 a, if_neg hane]
          exact hacc a h
        · have hae : a = e := List.mem_singleton.mp h
          rw [hlk1 a, if_pos hae, hk2]
      · rw [if_neg hk2] at ha
        have hane : ¬a = e := by
          intro h2
          have := hacc a ha
          rw [h2, hk] at this
          cases this
          omega
        rw [hlk1 a, if_neg hane]
        exact hacc a ha
    have hnd₁ : (if k = 1 then acc ++ [e] else acc).Nodup := by
      by_cases hk2 : k = 1
      · rw [if_pos hk2]
        rw [List.nodup_append]
        exact ⟨hnd, List.nodup_singleton e,
          fun a ha hb => henacc ((List.mem_singleton.mp hb) ▸ ha)⟩
      · rw [if_neg hk2]
        exact hnd
    obtain ⟨inc₂, acc₂, hfold, hval₂, hdom₂, hnd₂, hmem₂⟩ :=
      ih (incSet inc e (k - 1)) (if k = 1 then acc ++ [e] else acc) hbound₁ hdom₁ hacc₁ hnd₁
    refine ⟨inc₂, acc₂, ?_, ?_, ?_, hnd₂, ?_⟩
    · rw [List.foldlM_cons]
      show (decEdge inc acc e).bind _ = some (inc₂, acc₂)
      rw [hstep]
      exact hfold
    · intro m k0 h
      by_cases hme : m = e
      · subst hme
        rw [hk] at h
        cases h
        have h2 : incLookup (incSet inc m (k - 1)) m = some (k - 1) := by
          rw [hlk1 m, if_pos rfl]
        have := hval₂ m (k - 1) h2
        rw [this, List.count_cons_self]
        congr 1
        omega
      · have h2 : incLookup (incSet inc e (k - 1)) m = some k0 := by
          rw [hlk1 m, if_neg hme]
          exact h
        have := hval₂ m k0 h2
        rw [this, List.count_cons_of_ne hme]
    · intro m
      rw [hdom₂ m, hlk1 m]
      by_cases hme : m = e
      · rw [if_pos hme, hme, hk]
        rfl
      · rw [if_neg hme]
    · intro m
      rw [hmem₂ m]
      by_cases hme : m = e
      · subst hme
        rw [hlk1 m, if_pos rfl, hk, List.count_cons_self]
        by_cases hk2 : k = 1
        · rw [if_pos hk2]
          have hcnt : es.count m = 0 := by omega
          constructor
          · intro _
            right
            rw [hcnt]
            exact ⟨by rw [hk2], by omega⟩
          · intro _
            exact Or.inl (List.mem_append.mpr (Or.inr (List.mem_singleton.mpr rfl)))
        · rw [if_neg hk2]
          constructor
          · rintro (h | ⟨h1, h2⟩)
            · exact absurd h henacc
            · rw [Option.some_inj] at h1
              right
              refine ⟨by rw [Option.some_inj]; omega, by omega⟩
          · rintro (h | ⟨h1, h2⟩)
            · exact absurd h henacc
            · rw [Option.some_inj] at h1
              right
              refine ⟨by rw [Option.some_inj]; omega, by omega⟩
      · rw [hlk1 m, if_neg hme, List.count_cons_of_ne hme]
        by_cases hk2 : k = 1
        · rw [if_pos hk2]
          constructor
          · rintro (h | h)
            · rcases List.mem_append.mp h with h2 | h2
              · exact Or.inl h2
              · exact absurd (List.mem_singleton.mp h2) hme
            · exact Or.inr h
          · rintro (h | h)
            · exact Or.inl (List.mem_append.mpr (Or.inl h))
            · exact Or.inr h
        · rw [if_neg hk2]

theorem count_flatMap (g : Node → List Node) (m : Node) :
    ∀ roots : List Node,
      (roots.flatMap g).count m = (roots.map fun x => (g x).count m).sum := by
  intro roots
  induction roots with
  | nil => rfl
  | cons x xs ih =>
    rw [List.flatMap_cons, List.count_append, List.map_cons, List.sum_cons, ih]

theorem foldlM_procNode_eq (env : Env) (hres : ResolvesAll env) :
    ∀ (roots : List Node) (st : List (Node × Nat) × List Node),
      roots.foldlM (procNode env) st =
        (roots.flatMap fun x => funcChildren env x.1).foldlM
          (fun p c => decEdge p.1 p.2 c) st := by
  intro roots
  induction roots with
  | nil => intro st; rfl
  | cons x xs ih =>
    intro st
    rw [List.foldlM_cons, List.flatMap_cons, List.foldlM_append]
    have hp : procNode env st x =
        (funcChildren env x.1).foldlM (fun p c => decEdge p.1 p.2 c) st := by
      unfold procNode
      rw [childrenE_ok env hres x.1]
    rw [hp]
    cases (funcChildren env x.1).foldlM (fun p c => decEdge p.1 p.2 c) st with
    | none => rfl
    | some st' => exact ih st'

theorem remCount_nil (env : Env) (doneF : List Node) (m : Node) :
    remCount env doneF [] m =
      (doneF.map fun n => (funcChildren env n.1).count m).sum := by
  unfold remCount
  have h : (doneF.filter fun x => decide (x ∉ ([] : List Node))) = doneF := by
    apply List.filter_eq_self.mpr
    intro x _
    simp
  rw [h]

theorem remCount_pos (env : Env) (doneF P : List Node) (m n : Node)
    (hn : n ∈ doneF) (hnP : n ∉ P) (hc : m ∈ funcChildren env n.1) :
    1 ≤ remCount env doneF P m := by
  unfold remCount
  have hmem : n ∈ doneF.filter fun x => decide (x ∉ P) := by
    rw [List.mem_filter]
    exact ⟨hn, by simp [hnP]⟩
  have hcount : 1 ≤ (funcChildren env n.1).count m := by
    have := List.count_pos_iff.mpr hc
    omega
  calc 1 ≤ (funcChildren env n.1).count m := hcount
    _ ≤ _ := List.single_le_sum (fun x _ => Nat.zero_le x) _
        (List.mem_map.mpr ⟨n, hmem, rfl⟩)

theorem filter_split_perm (doneF P roots : List Node)
    (hnd : doneF.Nodup) (hrnd : roots.Nodup)
    (hsub : ∀ x ∈ roots, x ∈ doneF ∧ x ∉ P) :
    (doneF.filter fun x => decide (x ∉ P)).Perm
      (roots ++ doneF.filter fun x => decide (x ∉ P ∧ x ∉ roots)) := by
  refine (List.perm_ext_iff_of_nodup (List.Nodup.filter _ hnd) ?_).mpr ?_
  · refine List.Nodup.append hrnd (List.Nodup.filter _ hnd) ?_
    intro a ha hb
    rw [List.mem_filter] at hb
    simp only [decide_eq_true_eq] at hb
    exact hb.2.2 ha
  · intro a
    rw [List.mem_filter, List.mem_append, List.mem_filter]
    simp only [decide_eq_true_eq]
    constructor
    · rintro ⟨ha, hp⟩
      by_cases har : a ∈ roots
      · exact Or.inl har
      · exact Or.inr ⟨ha, hp, har⟩
    · rintro (har | ⟨ha, hp, _⟩)
      · obtain ⟨h1, h2⟩ := hsub a har
        exact ⟨h1, h2⟩
      · exact ⟨ha, hp⟩

theorem remCount_step (env : Env) (doneF P roots : List Node) (m : Node)
    (hnd : doneF.Nodup) (hrnd : roots.Nodup)
    (hsub : ∀ x ∈ roots, x ∈ doneF ∧ x ∉ P) :
    remCount env doneF P m =
      (roots.map fun x => (funcChildren env x.1).count m).sum +
        remCount env doneF (P ++ roots) m := by
  unfold remCount
  have hperm := (filter_split_perm doneF P roots hnd hrnd hsub).map
    fun n => (funcChildren env n.1).count m
  rw [hperm.sum_eq, List.map_append, List.sum_append]
  congr 2
  congr 1
  apply List.filter_congr
  intro x _
  rw [decide_eq_decide]
  rw [List.mem_append]
  tauto

theorem exists_max_rank (rank : Func → Nat) :
    ∀ l : List Node, l ≠ [] → ∃ m ∈ l, ∀ x ∈ l, rank x.1 ≤ rank m.1 := by
  intro l
  induction l with
  | nil => intro h; exact absurd rfl h
  | cons a t ih =>
    intro _
    cases t with
    | nil =>
      refine ⟨a, List.mem_singleton.mpr rfl, ?_⟩
      intro x hx
      rw [List.mem_singleton.mp hx]
    | cons b t2 =>
      obtain ⟨m, hm, hmax⟩ := ih (List.cons_ne_nil b t2)
      by_cases hcmp : rank a.1 ≤ rank m.1
      · refine ⟨m, List.mem_cons_of_mem _ hm, ?_⟩
        intro x hx
        rcases List.mem_cons.mp hx with h | h
        · exact h ▸ hcmp
        · exact hmax x h
      · refine ⟨a, List.mem_cons_self _ _, ?_⟩
        intro x hx
        rcases List.mem_cons.mp hx with h | h
        · exact h ▸ le_refl _
        · exact le_trans (hmax x h) (le_of_not_le hcmp)

/-- Correctness of the wave loop of `get_toposort`: from any state
satisfying `WInv`, the loop finishes without `KeyError`, and the resulting
waves enumerate the not-yet-emitted visited nodes without repetition, with
every dependency edge pointing into a strictly later wave. -/
theorem wavesRun_spec (env : Env) (root : Node) (rank : Func → Nat)
    (hres : ResolvesAll env) (hrank : RankOk env rank)
    (incF : List (Node × Nat)) (doneF : List Node)
    (hfin : UGFinal env root incF doneF) (hroot : root ∈ doneF) :
    ∀ fuel roots inc P, WInv env root doneF incF roots inc P →
      (doneF.filter fun x => decide (x ∉ P)).length + 1 ≤ fuel →
      ∃ ws, wavesRun env fuel roots inc = some (.ok ws) ∧
        (∀ m, m ∈ ws.flatten ↔ m ∈ doneF ∧ m ∉ P) ∧
        ws.flatten.Nodup ∧
        ChildrenLater env ws ∧
        (roots = [] → ws = []) ∧
        (∀ x xs, roots = x :: xs → ∃ tail, ws = (x :: xs) :: tail) := by
  have hreachIff := doneF_reachable_iff env root incF doneF hfin hroot
  have hdomF : ∀ m ∈ doneF, m ≠ root → (incLookup incF m).isSome = true := by
    intro m hm hne
    obtain ⟨n, hnr, hc⟩ := reach_parent env root ((hreachIff m).mp hm) hne
    exact (hfin.domIff m).mpr ⟨n, (hreachIff n).mpr hnr, hc⟩
  intro fuel
  induction fuel with
  | zero =>
    intro roots inc P _ hf
    omega
  | succ fuel ih =>
    intro roots inc P hinv hf
    match roots with
    | [] =>
      refine ⟨[], rfl, ?_, List.nodup_nil, trivial, fun _ => rfl, fun x xs h => by cases h⟩
      intro m
      simp only [List.flatten_nil, List.not_mem_nil, false_iff]
      rintro ⟨hmd, hmp⟩
      have hne : (doneF.filter fun x => decide (x ∉ P)) ≠ [] := by
        intro h
        have hmem : m ∈ doneF.filter fun x => decide (x ∉ P) := by
          rw [List.mem_filter]
          exact ⟨hmd, by simp [hmp]⟩
        rw [h] at hmem
        cases hmem
      obtain ⟨m₀, hm₀, hmax⟩ := exists_max_rank rank _ hne
      rw [List.mem_filter] at hm₀
      have hm₀d : m₀ ∈ doneF := hm₀.1
      have hm₀p : m₀ ∉ P := by simpa using hm₀.2
      have hrem : remCount env doneF P m₀ = 0 := by
        unfold remCount
        apply List.sum_eq_zero
        intro y hy
        rcases List.mem_map.mp hy with ⟨n, hn, hny⟩
        rw [← hny]
        apply List.count_eq_zero.mpr
        intro hc
        have h1 : rank m₀.1 < rank n.1 := rank_lt_of_child env rank hrank n.1 m₀ hc
        rw [List.mem_filter] at hn
        have h2 : rank n.1 ≤ rank m₀.1 := hmax n (by rw [List.mem_filter]; exact hn)
        omega
      have : m₀ ∈ ([] : List Node) := (hinv.hroots m₀).mpr ⟨hm₀d, hm₀p, hrem⟩
      cases this
    | x :: xs =>
      have hRsub : ∀ y ∈ x :: xs, y ∈ doneF ∧ y ∉ P := by
        intro y hy
        have := (hinv.hroots y).mp hy
        exact ⟨this.1, this.2.1⟩
      have hRz : ∀ y ∈ x :: xs, remCount env doneF P y = 0 := by
        intro y hy
        exact ((hinv.hroots y).mp hy).2.2
      have hRnd : (x :: xs).Nodup := hinv.hnd.of_append_right
      have hPnd : P.Nodup := hinv.hnd.of_append_left
      have hPRdis : ∀ y ∈ x :: xs, y ∉ P := fun y hy => (hRsub y hy).2
      have hstep_rem : ∀ m, remCount env doneF P m =
          ((x :: xs).flatMap fun y => funcChildren env y.1).count m +
            remCount env doneF (P ++ (x :: xs)) m := by
        intro m
        rw [count_flatMap]
        exact remCount_step env doneF P (x :: xs) m hfin.nodup hRnd hRsub
      have hbound : ∀ m k, incLookup inc m = some k →
          ((x :: xs).flatMap fun y => funcChildren env y.1).count m ≤ k := by
        intro m k h
        have := hinv.hval m k h
        rw [this, hstep_rem m]
        omega
      have hdomes : ∀ m ∈ (x :: xs).flatMap fun y => funcChildren env y.1,
          (incLookup inc m).isSome = true := by
        intro m hm
        rcases List.mem_flatMap.mp hm with ⟨y, hy, hc⟩
        rw [hinv.hdomEq m]
        exact (hfin.domIff m).mpr ⟨y, hinv.hPR y (List.mem_append.mpr (Or.inr hy)), hc⟩
      obtain ⟨inc₂, acc₂, hfold, hval₂, hdom₂, hnd₂, hmem₂⟩ :=
        decEdges_spec ((x :: xs).flatMap fun y => funcChildren env y.1) inc []
          hbound hdomes (fun a ha => absurd ha (List.not_mem_nil a)) List.nodup_nil
      have hmem₂' : ∀ m, m ∈ acc₂ ↔
          (incLookup inc m = some (((x :: xs).flatMap fun y => funcChildren env y.1).count m) ∧
            ((x :: xs).flatMap fun y => funcChildren env y.1).count m ≠ 0) := by
        intro m
        rw [hmem₂ m]
        simp
      -- characterize the next wave
      have hnext : ∀ m, m ∈ acc₂ ↔
          m ∈ doneF ∧ m ∉ P ++ (x :: xs) ∧ remCount env doneF (P ++ (x :: xs)) m = 0 := by
        intro m
        rw [hmem₂' m]
        constructor
        · rintro ⟨hlk, hcnt⟩
          have hdm : m ∈ doneF := by
            apply hfin.domIn
            rw [← hinv.hdomEq m, hlk]
            rfl
          have hrm := hinv.hval m _ hlk
          have hzero : remCount env doneF (P ++ (x :: xs)) m = 0 := by
            have := hstep_rem m
            omega
          have hnp : m ∉ P := by
            intro hmp
            have := hinv.hPz m hmp
            have h2 := hstep_rem m
            omega
          have hnr : m ∉ x :: xs := by
            intro hmr
            have := hRz m hmr
            have h2 := hstep_rem m
            omega
          refine ⟨hdm, ?_, hzero⟩
          intro hmem
          rcases List.mem_append.mp hmem with h | h
          · exact hnp h
          · exact hnr h
        · rintro ⟨hdm, hnp', hzero⟩
          have hnp : m ∉ P := fun h => hnp' (List.mem_append.mpr (Or.inl h))
          have hnr : m ∉ x :: xs := fun h => hnp' (List.mem_append.mpr (Or.inr h))
          have hmne : m ≠ root := by
            intro h
            exact hnp' (h ▸ hinv.hrootIn)
          have hsome : (incLookup inc m).isSome = true := by
            rw [hinv.hdomEq m]
            exact hdomF m hdm hmne
          obtain ⟨k, hk⟩ : ∃ k, incLookup inc m = some k := by
            cases h : incLookup inc m with
            | none => rw [h] at hsome; cases hsome
            | some k => exact ⟨k, rfl⟩
          have hkrem := hinv.hval m k hk
          have hcnt_ne : ((x :: xs).flatMap fun y => funcChildren env y.1).count m ≠ 0 := by
            intro hcz
            have hremP : remCount env doneF P m = 0 := by
              have := hstep_rem m
              omega
            exact hnr ((hinv.hroots m).mpr ⟨hdm, hnp, hremP⟩)
          refine ⟨?_, hcnt_ne⟩
          rw [hk]
          congr 1
          have := hstep_rem m
          omega
      -- the new invariant
      have hinv' : WInv env root doneF incF acc₂ inc₂ (P ++ (x :: xs)) :=
        { hPR := by
            intro y hy
            rcases List.mem_append.mp hy with h | h
            · exact hinv.hPR y h
            · exact ((hnext y).mp h).1
          hnd := by
            refine List.Nodup.append hinv.hnd hnd₂ ?_
            intro a ha hb
            exact ((hnext a).mp hb).2.1 ha
          hdomEq := fun m => by rw [hdom₂ m, hinv.hdomEq m]
          hval := by
            intro m k h
            have hsome : (incLookup inc m).isSome = true := by
              rw [← hdom₂ m, h]
              rfl
            obtain ⟨k0, hk0⟩ : ∃ k0, incLookup inc m = some k0 := by
              cases h2 : incLookup inc m with
              | none => rw [h2] at hsome; cases hsome
              | some k0 => exact ⟨k0, rfl⟩
            have := hval₂ m k0 hk0
            rw [h] at this
            cases this
            have h3 := hinv.hval m k0 hk0
            have h4 := hstep_rem m
            omega
          hroots := hnext
          hPz := by
            intro m hm
            rcases List.mem_append.mp hm with h | h
            · have := hinv.hPz m h
              have h2 := hstep_rem m
              omega
            · have := hRz m h
              have h2 := hstep_rem m
              omega
          hrootIn := List.mem_append.mpr (Or.inl hinv.hrootIn) }
      have hfuel' : (doneF.filter fun y => decide (y ∉ P ++ (x :: xs))).length + 1 ≤ fuel := by
        have hperm := filter_split_perm doneF P (x :: xs) hfin.nodup hRnd hRsub
        have hlen := hperm.length_eq
        have hcongr : (doneF.filter fun y => decide (y ∉ P ∧ y ∉ (x :: xs))) =
            (doneF.filter fun y => decide (y ∉ P ++ (x :: xs))) := by
          apply List.filter_congr
          intro y _
          rw [decide_eq_decide]
          rw [List.mem_append]
          tauto
        rw [List.length_append, hcongr] at hlen
        have hxlen : (x :: xs).length = xs.length + 1 := rfl
        omega
      obtain ⟨ws', hwrun, hmemw, hndw, hclw, _, _⟩ :=
        ih acc₂ inc₂ (P ++ (x :: xs)) hinv' hfuel'
      refine ⟨(x :: xs) :: ws', ?_, ?_, ?_, ?_, ?_, ?_⟩
      · show wavesRun env (fuel + 1) (x :: xs) inc = some (.ok ((x :: xs) :: ws'))
        unfold wavesRun
        rw [foldlM_procNode_eq env hres (x :: xs) (inc, []), hfold]
        simp only [hwrun]
      · intro m
        rw [List.flatten_cons, List.mem_append, hmemw m]
        constructor
        · rintro (h | ⟨hd, hp⟩)
          · exact ⟨(hRsub m h).1, (hRsub m h).2⟩
          · exact ⟨hd, fun h2 => hp (List.mem_append.mpr (Or.inl h2))⟩
        · rintro ⟨hd, hp⟩
          by_cases hmr : m ∈ x :: xs
          · exact Or.inl hmr
          · refine Or.inr ⟨hd, ?_⟩
            intro h2
            rcases List.mem_append.mp h2 with h3 | h3
            · exact hp h3
            · exact hmr h3
      · rw [List.flatten_cons]
        refine List.Nodup.append hRnd hndw ?_
        intro a ha hb
        exact ((hmemw a).mp hb).2 (List.mem_append.mpr (Or.inr ha))
      · refine ⟨?_, hclw⟩
        intro n hn m hc
        rw [hmemw m]
        have hnd2 : n ∈ doneF := (hRsub n hn).1
        have hnP : n ∉ P := (hRsub n hn).2
        have hmd : m ∈ doneF := hfin.domIn m ((hfin.domIff m).mpr ⟨n, hnd2, hc⟩)
        refine ⟨hmd, ?_⟩
        intro hmem
        have hpos := remCount_pos env doneF P m n hnd2 hnP hc
        rcases List.mem_append.mp hmem with h | h
        · have := hinv.hPz m h
          omega
        · have := hRz m h
          omega
      · intro h
        exact absurd h (List.cons_ne_nil x xs)
      · intro y ys h
        cases h
        exact ⟨ws', rfl⟩

theorem runWaveSerial_all_ok (op : Func → PassedArgs → Option Nat)
    (hop : ∀ f a, op f a = none) :
    ∀ w : List Node,
      runWaveSerial op w = (w.map fun x => (x.1, PassedArgs.plain x.2), none) := by
  intro w
  induction w with
  | nil => rfl
  | cons x xs ih =>
    obtain ⟨f, a⟩ := x
    simp [runWaveSerial, hop, ih]

theorem runWaves_serial_all_ok (op : Func → PassedArgs → Option Nat)
    (hop : ∀ f a, op f a = none) (reportF : Func) :
    ∀ tws : List (List Node),
      runWaves op false reportF tws =
        (tws.flatten.map fun x => (x.1, PassedArgs.plain x.2), none) := by
  intro tws
  induction tws with
  | nil => rfl
  | cons w ws ih =>
    simp [runWaves, runWaveSerial_all_ok op hop, ih, List.flatten_cons, List.map_append]

theorem childrenLater_flatten_mem (env : Env) :
    ∀ ws, ChildrenLater env ws →
      ∀ n ∈ ws.flatten, ∀ m ∈ funcChildren env n.1, m ∈ ws.flatten := by
  intro ws
  induction ws with
  | nil =>
    intro _ n hn
    simp at hn
  | cons w ws ih =>
    rintro ⟨hw, hcl⟩ n hn m hm
    rw [List.flatten_cons, List.mem_append] at hn ⊢
    rcases hn with h | h
    · exact Or.inr (hw n h m hm)
    · exact Or.inr (ih hcl n h m hm)

theorem exec_order_split (env : Env) :
    ∀ ws, ChildrenLater env ws →
      ∀ n m, n ∈ ws.flatten → m ∈ funcChildren env n.1 →
        ∃ l₁ l₂, ws.reverse.flatten = l₁ ++ n :: l₂ ∧ m ∈ l₁ := by
  intro ws
  induction ws with
  | nil =>
    intro _ n m hn
    simp at hn
  | cons w ws ih =>
    rintro ⟨hw, hcl⟩ n m hn hm
    have hrev : (w :: ws).reverse.flatten = ws.reverse.flatten ++ w := by
      rw [List.reverse_cons, List.flatten_append]
      simp
    rw [List.flatten_cons, List.mem_append] at hn
    rcases hn with h | h
    · have hmw : m ∈ ws.flatten := hw n h m hm
      have hmrev : m ∈ ws.reverse.flatten := by
        rw [List.mem_flatten] at hmw ⊢
        rcases hmw with ⟨l, hl, hml⟩
        exact ⟨l, List.mem_reverse.mpr hl, hml⟩
      obtain ⟨s, t, hst⟩ := List.append_of_mem h
      refine ⟨ws.reverse.flatten ++ s, t, ?_, List.mem_append.mpr (Or.inl hmrev)⟩
      rw [hrev, hst]
      simp [List.append_assoc]
    · obtain ⟨l₁, l₂, heq, hml⟩ := ih hcl n m h hm
      refine ⟨l₁, l₂ ++ w, ?_, hml⟩
      rw [hrev, heq]
      simp [List.append_assoc]

theorem occurrences_eq_zero {α : Type} [DecidableEq α] {l : List α} {y : α}
    (h : y ∉ l) : occurrences y l = 0 := by
  induction l with
  | nil => rfl
  | cons a t ih =>
    unfold occurrences at ih ⊢
    rw [List.filter_cons]
    have hay : ¬(a = y) := fun h2 => h (h2 ▸ List.mem_cons_self a t)
    simp only [decide_eq_true_eq, hay, decide_False]
    exact ih fun h2 => h (List.mem_cons_of_mem _ h2)

theorem occurrences_eq_one {α : Type} [DecidableEq α] {l : List α} (hnd : l.Nodup)
    {y : α} (hy : y ∈ l) : occurrences y l = 1 := by
  induction l with
  | nil => cases hy
  | cons a t ih =>
    have hnd2 := List.nodup_cons.mp hnd
    unfold occurrences
    rw [List.filter_cons]
    by_cases hay : a = y
    · subst hay
      simp only [decide_True, if_true]
      have : occurrences a t = 0 := occurrences_eq_zero hnd2.1
      unfold occurrences at this
      rw [List.length_cons, this]
    · simp only [decide_eq_true_eq, hay, decide_False]
      have hyt : y ∈ t := by
        rcases List.mem_cons.mp hy with h | h
        · exact absurd h.symm hay
        · exact h
      exact ih hnd2.2 hyt

/-- Full behaviour of a serial `run_tree` call from a fresh process state,
on a declaration set that resolves and is acyclic, with operations that
never raise: the run finishes without failure, invokes exactly the nodes
reachable from the requested root — each exactly once — never invokes a
node before one of its dependency edges' targets, and invokes the requested
root last. -/
theorem runTree_full_spec (env : Env) (op : Func → PassedArgs → Option Nat) (root : Node)
    (rank : Func → Nat) (fuel : Nat)
    (hres : ResolvesAll env) (hrank : RankOk env rank)
    (hop : ∀ f a, op f a = none) (hfuel : ugFuel env root ≤ fuel) :
    ∃ invocs incF,
      runTree env op false root fuel [] = some (.finished invocs none incF) ∧
      (∀ n, Reachable env root n → occurrences (n.1, PassedArgs.plain n.2) invocs = 1) ∧
      (∀ y ∈ invocs, ∃ n, Reachable env root n ∧ y = (n.1, PassedArgs.plain n.2)) ∧
      (∀ n m, Reachable env root n → m ∈ funcChildren env n.1 →
        ∃ l₁ l₂, invocs = l₁ ++ (n.1, PassedArgs.plain n.2) :: l₂ ∧
          (m.1, PassedArgs.plain m.2) ∈ l₁) ∧
      (∃ pre, invocs = pre ++ [(root.1, PassedArgs.plain root.2)]) := by
  obtain ⟨incF, doneF, hug, hfin, hrootd⟩ := ugRun_initial env root rank hres hrank fuel hfuel
  have hreachIff := doneF_reachable_iff env root incF doneF hfin hrootd
  have hrem0 : remCount env doneF [] root = 0 := by
    rw [remCount_nil]
    apply List.sum_eq_zero
    intro y hy
    rcases List.mem_map.mp hy with ⟨n, hn, hny⟩
    rw [← hny]
    exact List.count_eq_zero.mpr
      (root_not_child env root rank hrank ((hreachIff n).mp hn))
  have hinv0 : WInv env root doneF incF [root] incF [] :=
    { hPR := by
        intro y hy
        rw [List.nil_append] at hy
        rw [List.mem_singleton.mp hy]
        exact hrootd
      hnd := by
        rw [List.nil_append]
        exact List.nodup_singleton root
      hdomEq := fun m => rfl
      hval := by
        intro m k h
        rw [remCount_nil]
        exact hfin.val m k h
      hroots := by
        intro m
        constructor
        · intro hm
          rw [List.mem_singleton.mp hm]
          exact ⟨hrootd, List.not_mem_nil root, hrem0⟩
        · rintro ⟨hd, _, hrem⟩
          rw [List.mem_singleton]
          by_contra hne
          obtain ⟨n, hnr, hc⟩ := reach_parent env root ((hreachIff m).mp hd) hne
          have := remCount_pos env doneF [] m n ((hreachIff n).mpr hnr)
            (List.not_mem_nil n) hc
          omega
      hPz := fun m hm => absurd hm (List.not_mem_nil m)
      hrootIn := by
        rw [List.nil_append]
        exact List.mem_singleton.mpr rfl }
  have hflen : (doneF.filter fun x => decide (x ∉ ([] : List Node))).length + 1 ≤ fuel := by
    have heq : (doneF.filter fun x => decide (x ∉ ([] : List Node))) = doneF := by
      apply List.filter_eq_self.mpr
      intro x _
      simp
    rw [heq]
    have hlen := reach_list_length_le env root doneF hfin.nodup
      (fun x hx => (hreachIff x).mp hx)
    unfold ugFuel at hfuel
    omega
  obtain ⟨ws, hwrun, hmemw, hndw, hclw, _, hhead⟩ :=
    wavesRun_spec env root rank hres hrank incF doneF hfin hrootd fuel [root] incF []
      hinv0 hflen
  obtain ⟨tail, htail⟩ := hhead root [] rfl
  subst htail
  have hserial := runWaves_serial_all_ok op hop root.1 tail.reverse
  have hrt : runTree env op false root fuel [] = some (.finished
      ((tail.reverse.flatten.map fun x => (x.1, PassedArgs.plain x.2)) ++
        [(root.1, PassedArgs.plain root.2)]) none incF) := by
    simp only [runTree, hug, hwrun, List.reverse_cons, List.dropLast_concat, hserial,
      hop root.1 (PassedArgs.plain root.2)]
  have hmemw' : ∀ m, m ∈ ([root] :: tail).flatten ↔ m ∈ doneF := by
    intro m
    rw [hmemw m]
    simp
  have hpermL : (tail.reverse.flatten ++ [root]).Perm (([root] :: tail).flatten) := by
    have h1 : tail.reverse.flatten.Perm tail.flatten := (List.reverse_perm tail).flatten
    have h2 := h1.append_right [root]
    refine h2.trans ?_
    rw [List.flatten_cons]
    exact List.perm_append_singleton root tail.flatten
  have hmemL : ∀ x : Node,
      x ∈ tail.reverse.flatten ++ [root] ↔ x ∈ ([root] :: tail).flatten :=
    fun x => hpermL.mem_iff
  have hFinj : Function.Injective fun x : Node => (x.1, PassedArgs.plain x.2) := by
    intro a b h
    simp only [Prod.mk.injEq, PassedArgs.plain.injEq] at h
    exact Prod.ext h.1 h.2
  have hrevflat : ([root] :: tail).reverse.flatten = tail.reverse.flatten ++ [root] := by
    rw [List.reverse_cons, List.flatten_append]
    simp
  have hmapsing : [(root.1, PassedArgs.plain root.2)] =
      List.map (fun x : Node => (x.1, PassedArgs.plain x.2)) [root] := rfl
  refine ⟨_, incF, hrt, ?_, ?_, ?_, ⟨_, rfl⟩⟩
  · intro n hn
    have hmem : n ∈ ([root] :: tail).flatten := (hmemw' n).mpr ((hreachIff n).mpr hn)
    have hLnd : (tail.reverse.flatten ++ [root]).Nodup := hpermL.nodup_iff.mpr hndw
    have hinvnd : ((tail.reverse.flatten ++ [root]).map
        fun x : Node => (x.1, PassedArgs.plain x.2)).Nodup := hLnd.map hFinj
    have hmemInv : (n.1, PassedArgs.plain n.2) ∈ (tail.reverse.flatten ++ [root]).map
        fun x : Node => (x.1, PassedArgs.plain x.2) :=
      List.mem_map.mpr ⟨n, (hmemL n).mpr hmem, rfl⟩
    rw [hmapsing, ← List.map_append]
    exact occurrences_eq_one hinvnd hmemInv
  · intro y hy
    rw [hmapsing, ← List.map_append] at hy
    rcases List.mem_map.mp hy with ⟨n, hnL, hny⟩
    refine ⟨n, ?_, hny.symm⟩
    exact (hreachIff n).mp ((hmemw' n).mp ((hmemL n).mp hnL))
  · intro n m hn hm
    have hnflat : n ∈ ([root] :: tail).flatten := (hmemw' n).mpr ((hreachIff n).mpr hn)
    obtain ⟨l₁, l₂, heq, hml⟩ := exec_order_split env ([root] :: tail) hclw n m hnflat hm
    rw [hrevflat] at heq
    refine ⟨l₁.map fun x => (x.1, PassedArgs.plain x.2),
      l₂.map fun x => (x.1, PassedArgs.plain x.2), ?_, ?_⟩
    · rw [hmapsing, ← List.map_append, heq]
      simp
    · exact List.mem_map.mpr ⟨m, hml, rfl⟩

/-- C1: for every acyclic dependency graph (acyclicity witnessed by a rank
function strictly decreasing along every dependency edge) whose references
all resolve, a serial run of a requested function with arguments — with
operations that do not raise, from a fresh process state, with sufficient
fuel — executes each reachable `(function, arguments)` node exactly once,
executes nothing else, and never executes a node before every node it
depends on has completed (each dependency edge's target occurs strictly
earlier in the invocation order). -/
theorem run_executes_each_reachable_node_exactly_once
    (env : Env) (op : Func → PassedArgs → Option Nat) (root : Node)
    (rank : Func → Nat) (fuel : Nat)
    (hres : ResolvesAll env) (hrank : RankOk env rank)
    (hop : ∀ f a, op f a = none) (hfuel : ugFuel env root ≤ fuel) :
    ∃ invocs incF,
      runTree env op false root fuel [] = some (.finished invocs none incF) ∧
      (∀ n, Reachable env root n → occurrences (n.1, PassedArgs.plain n.2) invocs = 1) ∧
      (∀ y ∈ invocs, ∃ n, Reachable env root n ∧ y = (n.1, PassedArgs.plain n.2)) ∧
      (∀ n m, Reachable env root n → m ∈ funcChildren env n.1 →
        ∃ l₁ l₂, invocs = l₁ ++ (n.1, PassedArgs.plain n.2) :: l₂ ∧
          (m.1, PassedArgs.plain m.2) ∈ l₁) := by
  obtain ⟨invocs, incF, h1, h2, h3, h4, _⟩ :=
    runTree_full_spec env op root rank fuel hres hrank hop hfuel
  exact ⟨invocs, incF, h1, h2, h3, h4⟩

/-- Witness for C1 on the diamond graph. -/
theorem run_executes_each_reachable_node_exactly_once_witness :
    (ResolvesAll diamondEnv ∧ RankOk diamondEnv diamondRank ∧
      ugFuel diamondEnv (0, []) ≤ 20) ∧
    (∃ invocs incF,
      runTree diamondEnv opNone false (0, []) 20 [] =
        some (.finished invocs none incF) ∧
      (∀ n, Reachable diamondEnv (0, []) n →
        occurrences (n.1, PassedArgs.plain n.2) invocs = 1) ∧
      (∀ y ∈ invocs, ∃ n, Reachable diamondEnv (0, []) n ∧
        y = (n.1, PassedArgs.plain n.2)) ∧
      (∀ n m, Reachable diamondEnv (0, []) n → m ∈ funcChildren diamondEnv n.1 →
        ∃ l₁ l₂, invocs = l₁ ++ (n.1, PassedArgs.plain n.2) :: l₂ ∧
          (m.1, PassedArgs.plain m.2) ∈ l₁)) :=
  ⟨⟨by unfold ResolvesAll; decide, by unfold RankOk; decide, by decide⟩,
   run_executes_each_reachable_node_exactly_once diamondEnv opNone (0, []) diamondRank 20
     (by unfold ResolvesAll; decide) (by unfold RankOk; decide) (fun _ _ => rfl) (by decide)⟩

/-- C10: calling the wrapper closure returned by `@cmd` (and, with `a = []`,
by `@task`) before the engine is finalized emits a warning and invokes the
wrapped function directly with the given arguments — none of its declared
dependencies is executed; after finalization the wrapper runs the full
dependency tree first: every reachable node is invoked exactly once, with
the wrapped function itself invoked last. -/
theorem wrapper_direct_before_finalize_tree_after
    (env : Env) (op : Func → PassedArgs → Option Nat) (f : Func) (a : Args)
    (rank : Func → Nat) (fuel : Nat)
    (hres : ResolvesAll env) (hrank : RankOk env rank)
    (hop : ∀ g b, op g b = none) (hfuel : ugFuel env (f, a) ≤ fuel) :
    wrapperCall env op false fuel [] false f a = .warnDirect (f, .plain a) ∧
    ∃ invocs incF,
      wrapperCall env op false fuel [] true f a =
        .tree (some (.finished invocs none incF)) ∧
      (∀ n, Reachable env (f, a) n → occurrences (n.1, PassedArgs.plain n.2) invocs = 1) ∧
      (∃ pre, invocs = pre ++ [(f, PassedArgs.plain a)]) := by
  refine ⟨rfl, ?_⟩
  obtain ⟨invocs, incF, h1, h2, _, _, h5⟩ :=
    runTree_full_spec env op (f, a) rank fuel hres hrank hop hfuel
  refine ⟨invocs, incF, ?_, h2, h5⟩
  show WrapperCall.tree (runTree env op false (f, a) fuel []) = _
  rw [h1]

/-- Witness for C10 on the diamond graph. -/
theorem wrapper_direct_before_finalize_tree_after_witness :
    (ResolvesAll diamondEnv ∧ RankOk diamondEnv diamondRank ∧
      ugFuel diamondEnv (0, []) ≤ 20) ∧
    (wrapperCall diamondEnv opNone false 20 [] false 0 [] =
      .warnDirect (0, .plain []) ∧
    ∃ invocs incF,
      wrapperCall diamondEnv opNone false 20 [] true 0 [] =
        .tree (some (.finished invocs none incF)) ∧
      (∀ n, Reachable diamondEnv (0, []) n →
        occurrences (n.1, PassedArgs.plain n.2) invocs = 1) ∧
      (∃ pre, invocs = pre ++ [(0, PassedArgs.plain [])])) :=
  ⟨⟨by unfold ResolvesAll; decide, by unfold RankOk; decide, by decide⟩,
   wrapper_direct_before_finalize_tree_after diamondEnv opNone 0 [] diamondRank 20
     (by unfold ResolvesAll; decide) (by unfold RankOk; decide) (fun _ _ => rfl) (by decide)⟩

end Sane
